import Mathlib

/-!
Verification of the PDDL front-end of the `unified-planning` repository.

The definitions below are a shallow embedding of the Python sources
`unified_planning/io/pddl_reader.py` and `unified_planning/model/types.py`:
pure functions become Lean functions, the iterative work-list loops of the
reader become fuel-indexed recursive functions (the Python loops are unbounded;
every theorem below supplies enough fuel, and fuel exhaustion is a distinguished
error value that never occurs in any run considered), and Python exceptions
become an explicit error monad (`Except PErr`).  Classes of the repository that
the spec declares out of scope (the expression algebra `FNode`, the `Problem`
container) are modelled as plain data with accessors that follow the spec's
description of those interfaces; such definitions carry a comment saying so.
-/

namespace UPVer

/-! ## User types (`unified_planning/model/types.py`)

A `_UserType` holds a name and an optional father which must itself be a user
type (`_UserType.__init__`).  The optional father is rendered here as two
constructors; `UserType.father` recovers the Python accessor.  Building the
value of the inductive corresponds to running the `TypeManager.UserType`
factory, which only accepts an already-constructed father. -/

inductive UserType where
  | root (name : String)
  | sub (name : String) (father : UserType)
deriving DecidableEq, Repr

def UserType.name : UserType → String
  | .root n => n
  | .sub n _ => n

def UserType.father : UserType → Option UserType
  | .root _ => none
  | .sub _ f => some f

/-- Transliteration of `TypeManager.user_type_ancestors`: yield the type, then
follow the `father` chain while it is not `None`. -/
def userTypeAncestors : UserType → List UserType
  | .root n => [.root n]
  | .sub n f => .sub n f :: userTypeAncestors f

/-- The check in `TypeManager.UserType`: creating a user type whose name equals
the name of an ancestor of its father raises `UPTypeError`; otherwise the type
is built. -/
def typeManagerUserType (name : String) (father : Option UserType) :
    Option UserType :=
  match father with
  | none => some (.root name)
  | some f =>
      if (userTypeAncestors f).any (fun a => a.name == name) then none
      else some (.sub name f)

/-- Depth of the father chain; used to show the ancestor list never repeats. -/
def UserType.depth : UserType → Nat
  | .root _ => 0
  | .sub _ f => f.depth + 1

theorem depth_le_of_mem_ancestors {u t : UserType}
    (h : u ∈ userTypeAncestors t) : u.depth ≤ t.depth := by
  induction t with
  | root n =>
      simp only [userTypeAncestors, List.mem_singleton] at h
      subst h; exact Nat.le_refl _
  | sub n f ih =>
      simp only [userTypeAncestors, List.mem_cons] at h
      cases h with
      | inl h => subst h; exact Nat.le_refl _
      | inr h =>
          have := ih h
          simp only [UserType.depth]
          omega

theorem ancestors_nodup (t : UserType) : (userTypeAncestors t).Nodup := by
  induction t with
  | root n => simp [userTypeAncestors]
  | sub n f ih =>
      simp only [userTypeAncestors, List.nodup_cons]
      refine ⟨fun hmem => ?_, ih⟩
      have := depth_le_of_mem_ancestors hmem
      simp only [UserType.depth] at this
      omega

theorem ancestors_chain (t : UserType) :
    List.Chain' (fun a b => a.father = some b) (userTypeAncestors t) := by
  induction t with
  | root n => simp [userTypeAncestors]
  | sub n f ih =>
      have hne : userTypeAncestors f ≠ [] := by
        cases f <;> simp [userTypeAncestors]
      have hhead : (userTypeAncestors f).head hne = f := by
        cases f <;> simp [userTypeAncestors]
      simp only [userTypeAncestors]
      rw [List.chain'_cons']
      refine ⟨fun y hy => ?_, ih⟩
      rw [List.head?_eq_head hne] at hy
      simp only [Option.mem_def, Option.some.injEq] at hy
      subst hy
      rw [hhead]
      rfl

theorem ancestors_last_is_root (t : UserType) :
    ∃ r, (userTypeAncestors t).getLast? = some r ∧ r.father = none := by
  induction t with
  | root n => exact ⟨.root n, rfl, rfl⟩
  | sub n f ih =>
      obtain ⟨r, hr, hf⟩ := ih
      refine ⟨r, ?_, hf⟩
      simp only [userTypeAncestors]
      exact List.mem_getLast?_cons hr

/-- C9: for every user type `t` built through the type manager,
`user_type_ancestors(t)` yields `t` first, then each successive parent (each
later element is the `father` of the one before it, the last one has no
father), the sequence is a finite list, and no type is yielded twice. -/
theorem c9_user_type_ancestors (t : UserType) :
    (userTypeAncestors t).head? = some t
    ∧ List.Chain' (fun a b => a.father = some b) (userTypeAncestors t)
    ∧ (∃ r, (userTypeAncestors t).getLast? = some r ∧ r.father = none)
    ∧ (userTypeAncestors t).Nodup := by
  refine ⟨?_, ancestors_chain t, ancestors_last_is_root t, ancestors_nodup t⟩
  cases t <;> rfl

/-! ## Numeric, boolean and user types (`unified_planning/model/types.py`) -/

inductive UPType where
  | bool
  | int (lb ub : Option Int)
  | real (lb ub : Option Rat)
  | user (t : UserType)
deriving DecidableEq, Repr

/-- Modelled from the spec: the `Fluent` container class of
`unified_planning.model` is out of scope ("consumed as builder interfaces");
per the spec a fluent is a named, possibly parameterized state variable with a
result type, and structurally identical fluents are equal. -/
structure UPFluent where
  name : String
  resultType : UPType
  params : List (String × UPType)
deriving DecidableEq, Repr

/-! ## Typed expressions

Modelled from the spec: the typed-expression algebra (`FNode` and the
expression-manager factory) is declared out of scope and consumed as a factory
interface.  Expressions are trees over constants, fluent applications, object /
parameter / bound-variable references, named n-ary operators and quantifiers;
hash-consing in the Python implementation makes `==` structural, which is what
the derived-by-hand `beq` below computes. -/

inductive FNode where
  | boolConst (b : Bool)
  | intConst (n : Int)
  | realConst (q : Rat)
  | fluentApp (f : UPFluent) (args : List FNode)
  | objectExp (name : String) (ty : UPType)
  | paramExp (name : String) (ty : UPType)
  | varExp (name : String) (ty : UPType)
  | opApp (op : String) (args : List FNode)
  | quant (q : String) (vars : List (String × UPType)) (body : FNode)
deriving Repr

mutual
def FNode.beq : FNode → FNode → Bool
  | .boolConst a, .boolConst b => a == b
  | .intConst a, .intConst b => a == b
  | .realConst a, .realConst b => a == b
  | .fluentApp f a, .fluentApp g b => f == g && FNode.beqList a b
  | .objectExp n t, .objectExp m u => n == m && t == u
  | .paramExp n t, .paramExp m u => n == m && t == u
  | .varExp n t, .varExp m u => n == m && t == u
  | .opApp o a, .opApp p b => o == p && FNode.beqList a b
  | .quant q v a, .quant r w b => q == r && v == w && FNode.beq a b
  | _, _ => false

def FNode.beqList : List FNode → List FNode → Bool
  | [], [] => true
  | a :: as, b :: bs => FNode.beq a b && FNode.beqList as bs
  | _, _ => false
end

instance : BEq FNode := ⟨FNode.beq⟩

def emTRUE : FNode := .boolConst true

def emFALSE : FNode := .boolConst false

/-- `FNode.is_true`: the expression is the boolean constant `True`. -/
def FNode.isTrue : FNode → Bool
  | .boolConst true => true
  | _ => false

def FNode.isIntConstant : FNode → Bool
  | .intConst _ => true
  | _ => false

def FNode.isRealConstant : FNode → Bool
  | .realConst _ => true
  | _ => false

/-- `FNode.constant_value()` as a rational (Python promotes `bool` to `int`
when comparing with numbers); `none` when the node is not a constant, which in
Python raises. -/
def FNode.constantValueRat : FNode → Option Rat
  | .boolConst b => some (if b then 1 else 0)
  | .intConst n => some (n : Rat)
  | .realConst q => some q
  | _ => none

/-- Modelled from the spec: the Python reader compares an effect increment
(an `FNode`) against the int literal `1` with `==`; the expression algebra is
out of scope, and per the spec the plan-length collapse triggers exactly when
"every per-action increment equals 1", so the comparison is true iff the node
is a numeric constant of that value. -/
def fnodeEqPyInt (e : FNode) (n : Int) : Bool :=
  e.constantValueRat == some (n : Rat)

mutual
/-- Modelled from the spec: `self._fve` (the free-vars extractor of the
environment, out-of-scope expression algebra) returns the set of fluent
applications occurring anywhere inside an expression. -/
def fluentExpsIn : FNode → List FNode
  | .fluentApp f args => .fluentApp f args :: fluentExpsInList args
  | .opApp _ args => fluentExpsInList args
  | .quant _ _ body => fluentExpsIn body
  | _ => []

def fluentExpsInList : List FNode → List FNode
  | [] => []
  | a :: as => fluentExpsIn a ++ fluentExpsInList as
end

/-- Membership of a (possibly absent) total-cost expression in an extracted
fluent set: `self._totalcost in self._fve.get(e)`; a Python `None` is never in
a set of `FNode`s. -/
def tcMem (tc : Option FNode) (e : FNode) : Bool :=
  match tc with
  | none => false
  | some t => (fluentExpsIn e).contains t

/-! ## Errors

Python exceptions raised (or propagated) by the reader.  `synErrAt` is a
`SyntaxError` whose message embeds the source span of the offending node
(`locn_start`/`locn_end`, which the Python code renders as line/column);
`synErr` is a `SyntaxError` with no position information.  `zeroDivErr` is a
`ZeroDivisionError` escaping from `Fraction` (only `ValueError` is caught at
line 534), `attrErr` models indexing into a leaf token (`CustomParseResults`
of a raw character has no `.value`), `indexErr` an out-of-range child access,
`fuelErr` is the artificial exhaustion value of the fuel-indexed loops. -/

inductive PErr where
  | synErr (msg : String)
  | synErrAt (ls le : Nat) (msg : String)
  | zeroDivErr
  | indexErr
  | attrErr
  | keyErr (k : String)
  | assertErr
  | typeErr (msg : String)
  | usageErr (msg : String)
  | probDefErr
  | pyValueErr
  | notImplErr
  | fuelErr
deriving DecidableEq, Repr

/-! ## Parse nodes

The result of the hand-rolled `nested_expr` grammar wrapped in
`CustomParseResults`: a node is a parenthesized list of children, a leaf is a
single token; both carry their source span (`locn_start`, `locn_end`).  A
`CustomParseResults` whose value is a one-element list holding a plain string
collapses to that string, which is exactly the leaf case. -/

inductive PExp where
  | leaf (ls le : Nat) (tok : String)
  | node (ls le : Nat) (children : List PExp)
deriving Repr

def PExp.locs : PExp → Nat
  | .leaf ls _ _ => ls
  | .node ls _ _ => ls

def PExp.loce : PExp → Nat
  | .leaf _ le _ => le
  | .node _ le _ => le

/-- `CustomParseResults.__len__`: the length of `self.value`, which for a leaf
is the length of the token string. -/
def PExp.plen : PExp → Nat
  | .leaf _ _ tok => tok.length
  | .node _ _ cs => cs.length

/-- `CustomParseResults.__getitem__`: child access.  Indexing into a leaf
takes a character of the token and rebuilding `CustomParseResults` from a raw
character fails with `AttributeError`; an out-of-range index raises
`IndexError`. -/
def PExp.child : PExp → Nat → Except PErr PExp
  | .leaf _ _ _, _ => .error .attrErr
  | .node _ _ cs, i =>
      match cs.get? i with
      | some c => .ok c
      | none => .error .indexErr

/-- The string value of a parse result, when it is a leaf; a node's value is a
list, so Python comparisons of it against a string are `False`. -/
def PExp.valueStr? : PExp → Option String
  | .leaf _ _ tok => some tok
  | .node _ _ _ => none

/-- `exp.value == s` for a string literal `s`. -/
def PExp.isTok (e : PExp) (s : String) : Bool :=
  e.valueStr? == some s

/-! ## Python `Fraction(str)` (`fractions` standard library)

`Fraction` accepts an optional sign followed by either `digits/digits`, or a
decimal form `digits[.digits]` / `.digits` with an optional exponent.  A
malformed string raises `ValueError` (which `_parse_exp` catches); a zero
denominator raises `ZeroDivisionError` (which it does not). -/

inductive FracErr where
  | valueErr
  | zeroDivErr
deriving DecidableEq, Repr

def digitsVal (cs : List Char) : Nat :=
  cs.foldl (fun a c => a * 10 + (c.toNat - 48)) 0

def allDigits (cs : List Char) : Bool :=
  cs.all (·.isDigit)

def pow10 (k : Nat) : Nat :=
  10 ^ k

def pyFraction (s : String) : Except FracErr Rat :=
  let cs := s.data
  let sgn : Int := match cs with
    | '-' :: _ => -1
    | _ => 1
  let body : List Char := match cs with
    | '-' :: r => r
    | '+' :: r => r
    | r => r
  if body.contains '/' then
    let num := body.takeWhile (fun c => c != '/')
    match body.dropWhile (fun c => c != '/') with
    | _ :: den =>
        if num != [] && allDigits num && den != [] && allDigits den then
          if digitsVal den == 0 then .error .zeroDivErr
          else .ok (mkRat (sgn * digitsVal num) (digitsVal den))
        else .error .valueErr
    | [] => .error .valueErr
  else
    let mant := body.takeWhile (fun c => c != 'e' && c != 'E')
    let expRes : Except FracErr (Option Int) :=
      match body.dropWhile (fun c => c != 'e' && c != 'E') with
      | [] => .ok none
      | _ :: et =>
          let esgn : Int := match et with
            | '-' :: _ => -1
            | _ => 1
          let ed : List Char := match et with
            | '-' :: r => r
            | '+' :: r => r
            | r => r
          if ed != [] && allDigits ed then .ok (some (esgn * digitsVal ed))
          else .error .valueErr
    match expRes with
    | .error e => .error e
    | .ok expo =>
        let ip := mant.takeWhile (fun c => c != '.')
        let fp : Option (List Char) :=
          match mant.dropWhile (fun c => c != '.') with
          | _ :: r => some r
          | [] => none
        let fpl := fp.getD []
        if allDigits ip && allDigits fpl && (ip != [] || fpl != []) then
          let mantNum := sgn * digitsVal (ip ++ fpl)
          .ok (match expo with
            | none => mkRat mantNum (pow10 fpl.length)
            | some e =>
                if 0 ≤ e then mkRat (mantNum * pow10 e.toNat) (pow10 fpl.length)
                else mkRat mantNum (pow10 fpl.length * pow10 (-e).toNat))
        else .error .valueErr

/-! ## String helpers

`String.startsWith`, `String.drop` and `String.toLower` are replaced by
character-list versions so that every definition evaluates by kernel
reduction.  `strHeadIsQm` is literally Python's `value[0] == "?"` (a first
character test). -/

def strHeadIsQm (s : String) : Bool :=
  match s.data with
  | c :: _ => c == '?'
  | [] => false

/-- Python `value[1:]`. -/
def strTail (s : String) : String :=
  ⟨s.data.drop 1⟩

def strToLower (s : String) : String :=
  ⟨s.data.map Char.toLower⟩

/-! ## Timings, intervals and durations (`unified_planning.model.timing`)

Modelled from the spec: timings/intervals are produced by the reader through
the factory constructors `StartTiming`, `EndTiming`, `OpenTimeInterval`,
`ClosedDurationInterval`, ... ; an interval records its two end timings and
whether each side is open. -/

structure UPTiming where
  delay : Rat
  isFromStart : Bool
deriving DecidableEq, Repr

def startTiming : UPTiming := ⟨0, true⟩

def endTiming : UPTiming := ⟨0, false⟩

structure TimeInterval where
  lower : UPTiming
  upper : UPTiming
  isLeftOpen : Bool
  isRightOpen : Bool
deriving DecidableEq, Repr

def openTimeInterval (l u : UPTiming) : TimeInterval := ⟨l, u, true, true⟩

def closedTimeInterval (l u : UPTiming) : TimeInterval := ⟨l, u, false, false⟩

/-- A bare `Timing` passed to `add_condition` denotes the single-point closed
interval at that timing. -/
def timePointInterval (t : UPTiming) : TimeInterval := ⟨t, t, false, false⟩

structure DurationInterval where
  lower : FNode
  upper : FNode
  isLeftOpen : Bool
  isRightOpen : Bool
deriving Repr

def fixedDuration (v : FNode) : DurationInterval := ⟨v, v, false, false⟩

def closedDurationInterval (l u : FNode) : DurationInterval := ⟨l, u, false, false⟩

/-! ## Effects, actions, metrics, problems

Modelled from the spec: the problem/action container classes are out of scope
("consumed as builder interfaces that the front-end populates"); they are plain
records here, and the builder calls (`add_effect`, `add_condition`,
`add_precondition`, ...) append to the corresponding list. -/

inductive EffKind where
  | assign
  | increase
  | decrease
deriving DecidableEq, Repr

structure UPEffect where
  fluent : FNode
  value : FNode
  condition : FNode
  kind : EffKind
deriving Repr

def UPEffect.beq (a b : UPEffect) : Bool :=
  a.fluent == b.fluent && a.value == b.value && a.condition == b.condition
    && a.kind == b.kind

instance : BEq UPEffect := ⟨UPEffect.beq⟩

def UPEffect.isIncrease (e : UPEffect) : Bool := e.kind == .increase

structure InstantaneousAction where
  name : String
  params : List (String × UPType)
  preconditions : List FNode
  effects : List UPEffect
deriving Repr

structure DurativeAction where
  name : String
  params : List (String × UPType)
  duration : DurationInterval
  conditions : List (TimeInterval × FNode)
  effects : List (UPTiming × UPEffect)
deriving Repr

inductive QualityMetric where
  | minimizeMakespan
  | minimizeSequentialPlanLength
  | minimizeActionCosts (costs : List (String × FNode)) (defaultCost : FNode)
  | minimizeExprOnFinalState (e : FNode)
  | maximizeExprOnFinalState (e : FNode)
deriving Repr

structure UPProblem where
  name : String
  fluents : List UPFluent
  objects : List (String × UPType)
  instActions : List InstantaneousAction
  durActions : List DurativeAction
  initialValues : List (FNode × FNode)
  timedEffects : List (UPTiming × UPEffect)
  goals : List FNode
  qualityMetrics : List QualityMetric
deriving Repr

def UPProblem.fluentByName (p : UPProblem) (s : String) : Option UPFluent :=
  p.fluents.find? (fun f => f.name == s)

def UPProblem.hasFluent (p : UPProblem) (s : String) : Bool :=
  (p.fluentByName s).isSome

def UPProblem.objectByName (p : UPProblem) (s : String) : Option (String × UPType) :=
  p.objects.find? (fun o => o.1 == s)

def UPProblem.hasObject (p : UPProblem) (s : String) : Bool :=
  (p.objectByName s).isSome

/-- `problem.objects(typename)`: the declared objects of the given type. -/
def UPProblem.objectsOfType (p : UPProblem) (t : UPType) : List (String × UPType) :=
  p.objects.filter (fun o => o.2 == t)

def UPProblem.initialValue? (p : UPProblem) (e : FNode) : Option FNode :=
  (p.initialValues.find? (fun q => q.1 == e)).map (fun q => q.2)

/-- `em.FluentExp(f, args)`: modelled from the spec, the factory rejects an
application whose argument list does not fit the fluent's signature. -/
def emFluentExp (f : UPFluent) (args : List FNode) : Except PErr FNode :=
  if args.length == f.params.length then .ok (.fluentApp f args)
  else .error (.typeErr "fluent arity mismatch")

/-! ## The case-insensitive type table (`CaseInsensitiveToken`, `TypesMap`) -/

abbrev TypesMap : Type := List (String × UPType)

/-- Lookup in a `Dict[CaseInsensitiveToken, Type]`: keys compare equal iff the
lower-cased strings coincide (`CaseInsensitiveToken.__eq__`). -/
def lookupCI (m : TypesMap) (k : String) : Option UPType :=
  (m.find? (fun p => strToLower p.1 == strToLower k)).map (fun p => p.2)

/-- Python `dict` insertion: an existing key keeps its position and gets the
new value, a fresh key is appended. -/
def pyDictInsert {α : Type} (m : List (String × α)) (k : String) (v : α) :
    List (String × α) :=
  if (m.lookup k).isSome then
    m.map (fun p => if p.1 == k then (k, v) else p)
  else m ++ [(k, v)]

/-! ## The parameter-list grammar (`grammar.parameters`)

`_parse_exp`, `_add_condition` and the universal-effect expansion re-parse the
space-joined tokens of a quantifier's variable list with the `parameters`
grammar: zero or more groups, each one or more `?name` variables followed by an
optional `- type`.  `ZeroOrMore` stops at the first token that fits neither
shape. -/

def isVarTok (t : String) : Bool :=
  match t.data with
  | '?' :: c :: _ => c.isAlpha
  | _ => false

def isNameTok (t : String) : Bool :=
  match t.data with
  | c :: _ => c.isAlpha
  | [] => false

def paramGroupsGo : Option (List String) → List String →
    List (List String × Option String)
  | none, [] => []
  | some vs, [] => [(vs.reverse, none)]
  | none, t :: ts =>
      if isVarTok t then paramGroupsGo (some [strTail t]) ts else []
  | some vs, t :: ts =>
      if isVarTok t then paramGroupsGo (some (strTail t :: vs)) ts
      else if t == "-" then
        match ts with
        | ty :: ts2 =>
            if isNameTok ty then (vs.reverse, some ty) :: paramGroupsGo none ts2
            else [(vs.reverse, none)]
        | [] => [(vs.reverse, none)]
      else [(vs.reverse, none)]

def parseParamGroups (toks : List String) : List (List String × Option String) :=
  paramGroupsGo none toks

/-- The token list `[e.value for e in exp]` used before the re-parse: iterating
a leaf indexes into its characters (an `AttributeError`), a child that is
itself a node contributes a list and the subsequent string join fails. -/
def leafTokens : PExp → Except PErr (List String)
  | .leaf _ _ _ => .error .attrErr
  | .node _ _ cs =>
      if cs.all (fun c => c.valueStr?.isSome) then .ok (cs.filterMap PExp.valueStr?)
      else .error (.typeErr "join expects strings")

/-- Resolve each group's type through the case-insensitive table, `object`
when the group carries no explicit type (`g.value[1] if len(g.value) > 1 else
Object`); a missing type is the `SyntaxError` of the `except KeyError` branch,
reported here with the span of the enclosing variable list. -/
def resolveParamGroups (tm : TypesMap) (els ele : Nat) :
    List (List String × Option String) → Except PErr (List (String × UPType))
  | [] => .ok []
  | (names, oty) :: rest => do
      let t ← match lookupCI tm (oty.getD "object") with
        | some t => pure t
        | none => Except.error (PErr.synErrAt els ele "Undefined variable type")
      let tail ← resolveParamGroups tm els ele rest
      .ok (names.map (fun n => (n, t)) ++ tail)

/-! ## The expression compiler (`PDDLReader._parse_exp`)

The Python implementation is an explicit two-phase stack machine (descend /
combine).  Its denotation is the recursion below: children are compiled before
their parent, the machine pops children right-to-left (so the rightmost
child's error surfaces first, preserved by `parseExpListRev`), and the combine
step reassembles the arguments in source order.  The recursion is indexed by
fuel standing for the unbounded Python loop. -/

def pddlOperators : List String :=
  ["and", "or", "not", "imply", ">=", "<=", ">", "<", "=", "+", "-", "/", "*"]

def trajectoryConstraintNames : List String :=
  ["always", "sometime", "sometime-before", "sometime-after", "at-most-once"]

/-- The leaf branch of `_parse_exp` (`elif isinstance(exp.value, str)`):
resolution order over a bare token at lines 503-557 of `pddl_reader.py`. -/
def parseLeaf (prob : UPProblem) (act : Option (List (String × UPType)))
    (var : List (String × UPType)) (asg : List (String × (String × UPType)))
    (ls le : Nat) (tok : String) : Except PErr FNode :=
  match (if strHeadIsQm tok then var.lookup (strTail tok) else none) with
  | some t => .ok (.varExp (strTail tok) t)
  | none =>
  match asg.lookup tok with
  | some o => .ok (.objectExp o.1 o.2)
  | none =>
  if strHeadIsQm tok then
    match act with
    | none => .error .assertErr
    | some ps =>
        match ps.lookup (strTail tok) with
        | some t => .ok (.paramExp (strTail tok) t)
        | none => .error (.synErrAt ls le "Undefined name found")
  else
    match prob.fluentByName tok with
    | some f => emFluentExp f []
    | none =>
    match prob.objectByName tok with
    | some o => .ok (.objectExp o.1 o.2)
    | none =>
        match pyFraction tok with
        | .ok q => .ok (if q.den == 1 then .intConst q.num else .realConst q)
        | .error .valueErr => .error (.synErrAt ls le "Found invalid expression")
        | .error .zeroDivErr => .error .zeroDivErr

mutual
def parseExpGo (prob : UPProblem) (act : Option (List (String × UPType)))
    (tm : TypesMap) (var : List (String × UPType))
    (asg : List (String × (String × UPType))) : Nat → PExp → Except PErr FNode
  | 0, _ => .error .fuelErr
  | fuel + 1, e =>
      match e with
      | .leaf ls le tok => parseLeaf prob act var asg ls le tok
      | .node ls le cs =>
        match cs with
        | [] => .ok emTRUE
        | c0 :: rest =>
          match c0.valueStr? with
          | some op =>
              if op == "-" && cs.length == 2 then
                match rest with
                | [x] => do
                    let v ← parseExpGo prob act tm var asg fuel x
                    .ok (.opApp "*" [.intConst (-1), v])
                | _ => .error .indexErr
              else if pddlOperators.contains op then do
                let args ← parseExpListRev prob act tm var asg fuel rest
                .ok (.opApp op args)
              else if op == "exists" || op == "forall" then do
                let varlist ← (PExp.node ls le cs).child 1
                let toks ← leafTokens varlist
                let newVarsL ← resolveParamGroups tm varlist.locs varlist.loce
                  (parseParamGroups toks)
                let newVars := newVarsL.foldl
                  (fun m p => pyDictInsert m p.1 p.2) []
                let allVars := newVars.foldl
                  (fun m p => pyDictInsert m p.1 p.2) var
                let body ← (PExp.node ls le cs).child 2
                let b ← parseExpGo prob act tm allVars asg fuel body
                .ok (.quant op newVars b)
              else if trajectoryConstraintNames.contains op then do
                let args ← parseExpListRev prob act tm var asg fuel rest
                .ok (.opApp op args)
              else if prob.hasFluent op then
                match prob.fluentByName op with
                | some f => do
                    let args ← parseExpListRev prob act tm var asg fuel rest
                    match emFluentExp f args with
                    | .ok v => .ok v
                    | .error _ => .error (.synErrAt ls le "bad fluent application")
                | none => .error .assertErr
              else if (asg.lookup op).isSome then
                if cs.length == 1 then
                  match asg.lookup op with
                  | some o => .ok (.objectExp o.1 o.2)
                  | none => .error .assertErr
                else .error .assertErr
              else if cs.length == 1 then
                parseExpGo prob act tm var asg fuel c0
              else .error (.synErrAt ls le "Not able to handle")
          | none =>
              if cs.length == 1 then
                parseExpGo prob act tm var asg fuel c0
              else .error (.synErrAt ls le "Not able to handle")

def parseExpListRev (prob : UPProblem)
    (act : Option (List (String × UPType))) (tm : TypesMap)
    (var : List (String × UPType)) (asg : List (String × (String × UPType))) :
    Nat → List PExp → Except PErr (List FNode)
  | _, [] => .ok []
  | 0, _ :: _ => .error .fuelErr
  | fuel + 1, e :: es => do
      let vs ← parseExpListRev prob act tm var asg fuel es
      let v ← parseExpGo prob act tm var asg fuel e
      .ok (v :: vs)
end

/-- `PDDLReader._parse_exp`: the fuel argument comes last at call sites for
readability; one unit of fuel is one push onto the explicit machine stack. -/
def parseExp (fuel : Nat) (prob : UPProblem)
    (act : Option (List (String × UPType))) (tm : TypesMap)
    (var : List (String × UPType)) (asg : List (String × (String × UPType)))
    (e : PExp) : Except PErr FNode :=
  parseExpGo prob act tm var asg fuel e

def FNode.isFalse : FNode → Bool
  | .boolConst false => true
  | _ => false

/-- Modelled from the spec: `FNode.simplify()` belongs to the out-of-scope
expression algebra ("construction and simplification of boolean/arithmetic
expression nodes").  The only use in the reader is the short-circuit of a
conditional effect whose condition simplifies to `False`; no claim depends on
constant folding beyond an already-constant condition, so the simplifier is
the identity here. -/
def fnodeSimplify (e : FNode) : FNode := e

/-- Python `list.remove(x)`: drop the first element comparing equal (used for
`a._effects.remove(cost)` and `problem._fluents.remove(...)`, where the element
was just found in the list, so the missing-element `ValueError` cannot
occur). -/
def removeFirstBEq {α : Type} [BEq α] : List α → α → List α
  | [], _ => []
  | x :: xs, a => if x == a then xs else x :: removeFirstBEq xs a

/-- The per-action table of deferred universal effects
(`universal_assignments`), keyed by owning action; `uaAppend` is
`setdefault(act, []).append(...)` for a batch of expressions. -/
abbrev UAMap : Type := List (String × List PExp)

def uaAppend (m : UAMap) (k : String) (es : List PExp) : UAMap :=
  if es.isEmpty then m
  else
    match m.lookup k with
    | some old =>
        m.map (fun p => if p.1 == k then (k, old ++ es) else p)
    | none => m ++ [(k, es)]

/-! ## The effect assembler (`PDDLReader._add_effect`)

The Python work-list loop pops from the front of `to_add` and appends at the
end; each iteration either enqueues children (`and`, surviving `when`), records
the expression as a deferred universal effect (`forall`), or compiles and adds
one effect.  The core below returns the effects and the deferred `forall`
expressions in the order they are produced; the wrappers append them to the
owning action / table.  `hasUA` says whether `universal_assignments` was passed
(`None` during the expansion stage, where a nested `forall` trips the
`assert`). -/

def addEffectLoop (pf : Nat) (prob : UPProblem) (tm : TypesMap)
    (actParams : List (String × UPType)) (hasUA : Bool)
    (asg : List (String × (String × UPType))) :
    Nat → List (PExp × FNode) → Except PErr (List UPEffect × List PExp)
  | _, [] => .ok ([], [])
  | 0, _ :: _ => .error .fuelErr
  | lf + 1, (exp, cond) :: restQ =>
      if exp.plen == 0 then addEffectLoop pf prob tm actParams hasUA asg lf restQ
      else
        match exp with
        | .leaf _ _ _ => .error .attrErr
        | .node _ _ [] => .error .indexErr
        | .node ls le (c0 :: rest) =>
          let node := PExp.node ls le (c0 :: rest)
          if c0.isTok "and" then
            addEffectLoop pf prob tm actParams hasUA asg lf
              (restQ ++ rest.map (fun c => (c, cond)))
          else if c0.isTok "when" then do
            let e1 ← node.child 1
            let c ← parseExp pf prob (some actParams) tm [] asg e1
            let c := fnodeSimplify c
            if c.isFalse then
              addEffectLoop pf prob tm actParams hasUA asg lf restQ
            else do
              let e2 ← node.child 2
              addEffectLoop pf prob tm actParams hasUA asg lf (restQ ++ [(e2, c)])
          else if c0.isTok "not" then do
            let e1 ← node.child 1
            let f ← parseExp pf prob (some actParams) tm [] asg e1
            let (effs, uas) ← addEffectLoop pf prob tm actParams hasUA asg lf restQ
            .ok (⟨f, emFALSE, cond, .assign⟩ :: effs, uas)
          else if c0.isTok "assign" then do
            let e1 ← node.child 1
            let e2 ← node.child 2
            let f ← parseExp pf prob (some actParams) tm [] asg e1
            let v ← parseExp pf prob (some actParams) tm [] asg e2
            let (effs, uas) ← addEffectLoop pf prob tm actParams hasUA asg lf restQ
            .ok (⟨f, v, cond, .assign⟩ :: effs, uas)
          else if c0.isTok "increase" then do
            let e1 ← node.child 1
            let e2 ← node.child 2
            let f ← parseExp pf prob (some actParams) tm [] asg e1
            let v ← parseExp pf prob (some actParams) tm [] asg e2
            let (effs, uas) ← addEffectLoop pf prob tm actParams hasUA asg lf restQ
            .ok (⟨f, v, cond, .increase⟩ :: effs, uas)
          else if c0.isTok "decrease" then do
            let e1 ← node.child 1
            let e2 ← node.child 2
            let f ← parseExp pf prob (some actParams) tm [] asg e1
            let v ← parseExp pf prob (some actParams) tm [] asg e2
            let (effs, uas) ← addEffectLoop pf prob tm actParams hasUA asg lf restQ
            .ok (⟨f, v, cond, .decrease⟩ :: effs, uas)
          else if c0.isTok "forall" then
            if hasUA then do
              let (effs, uas) ← addEffectLoop pf prob tm actParams hasUA asg lf restQ
              .ok (effs, node :: uas)
            else .error .assertErr
          else do
            let f ← parseExp pf prob (some actParams) tm [] asg node
            let (effs, uas) ← addEffectLoop pf prob tm actParams hasUA asg lf restQ
            .ok (⟨f, emTRUE, cond, .assign⟩ :: effs, uas)

/-- `_add_effect` on an instantaneous action (`timing is None`). -/
def addEffectInst (lf pf : Nat) (prob : UPProblem) (tm : TypesMap)
    (act : InstantaneousAction) (ua : Option UAMap) (exp : PExp)
    (asg : List (String × (String × UPType))) :
    Except PErr (InstantaneousAction × Option UAMap) := do
  let (effs, fas) ← addEffectLoop pf prob tm act.params ua.isSome asg lf
    [(exp, emTRUE)]
  let act1 := { act with effects := act.effects ++ effs }
  match ua with
  | none => .ok (act1, none)
  | some m => .ok (act1, some (uaAppend m act.name fas))

/-- `_add_effect` on a durative action with an explicit `timing`. -/
def addEffectDur (lf pf : Nat) (prob : UPProblem) (tm : TypesMap)
    (act : DurativeAction) (ua : Option UAMap) (exp : PExp)
    (timing : UPTiming) (asg : List (String × (String × UPType))) :
    Except PErr (DurativeAction × Option UAMap) := do
  let (effs, fas) ← addEffectLoop pf prob tm act.params ua.isSome asg lf
    [(exp, emTRUE)]
  let act1 := { act with effects := act.effects ++ effs.map (fun e => (timing, e)) }
  match ua with
  | none => .ok (act1, none)
  | some m => .ok (act1, some (uaAppend m act.name fas))

/-! ## Timed effects of durative actions (`PDDLReader._add_timed_effects`) -/

def addTimedEffectsLoop (pf : Nat) (prob : UPProblem) (tm : TypesMap)
    (asg : List (String × (String × UPType))) :
    Nat → DurativeAction → Option UAMap → List PExp →
    Except PErr (DurativeAction × Option UAMap)
  | _, act, ua, [] => .ok (act, ua)
  | 0, _, _, _ :: _ => .error .fuelErr
  | lf + 1, act, ua, eff :: restQ => do
      let c0 ← eff.child 0
      if c0.isTok "and" then
        match eff with
        | .node _ _ (_ :: rest) =>
            addTimedEffectsLoop pf prob tm asg lf act ua (restQ ++ rest)
        | _ => .error .attrErr
      else if eff.plen == 3 && c0.isTok "at"
          && ((eff.child 1).toOption.map (fun c => c.isTok "start")).getD false then do
        let e2 ← eff.child 2
        let (act1, ua1) ← addEffectDur lf pf prob tm act ua e2 startTiming asg
        addTimedEffectsLoop pf prob tm asg lf act1 ua1 restQ
      else if eff.plen == 3 && c0.isTok "at"
          && ((eff.child 1).toOption.map (fun c => c.isTok "end")).getD false then do
        let e2 ← eff.child 2
        let (act1, ua1) ← addEffectDur lf pf prob tm act ua e2 endTiming asg
        addTimedEffectsLoop pf prob tm asg lf act1 ua1 restQ
      else if eff.plen == 3 && c0.isTok "forall" then
        match ua with
        | none => .error .assertErr
        | some m =>
            addTimedEffectsLoop pf prob tm asg lf act
              (some (uaAppend m act.name [eff])) restQ
      else .error (.synErrAt eff.locs eff.loce "Not able to handle")

def addTimedEffects (lf pf : Nat) (prob : UPProblem) (tm : TypesMap)
    (act : DurativeAction) (ua : Option UAMap) (eff : PExp)
    (asg : List (String × (String × UPType))) :
    Except PErr (DurativeAction × Option UAMap) :=
  addTimedEffectsLoop pf prob tm asg lf act ua [eff]

/-! ## The condition assembler (`PDDLReader._add_condition`)

Work-list loop over `(expression, optional forall scope)` pairs.  Conditions
are returned in the order `act.add_condition` is called; the caller appends
them to the durative action.  The Python code threads the scope as a mutable
dict shared between queue entries; no claim exercises the aliasing corner
(a `forall` mutating a scope already attached to a sibling entry), so the
scope is passed functionally here. -/

def addConditionLoop (pf : Nat) (prob : UPProblem) (tm : TypesMap)
    (actParams : List (String × UPType)) :
    Nat → List (PExp × Option (List (String × UPType))) →
    Except PErr (List (TimeInterval × FNode))
  | _, [] => .ok []
  | 0, _ :: _ => .error .fuelErr
  | lf + 1, (exp, vars) :: restQ => do
      let c0 ← exp.child 0
      if c0.isTok "and" then
        match exp with
        | .node _ _ (_ :: rest) =>
            addConditionLoop pf prob tm actParams lf
              (restQ ++ rest.map (fun c => (c, vars)))
        | _ => .error .attrErr
      else if c0.isTok "forall" then do
        let varlist ← exp.child 1
        let toks ← leafTokens varlist
        let newVarsL ← resolveParamGroups tm varlist.locs varlist.loce
          (parseParamGroups toks)
        let vars0 := vars.getD []
        let vars1 := newVarsL.foldl (fun m p => pyDictInsert m p.1 p.2) vars0
        let body ← exp.child 2
        addConditionLoop pf prob tm actParams lf (restQ ++ [(body, some vars1)])
      else if exp.plen == 3 && c0.isTok "at"
          && ((exp.child 1).toOption.map (fun c => c.isTok "start")).getD false then do
        let e2 ← exp.child 2
        let c ← parseExp pf prob (some actParams) tm (vars.getD []) [] e2
        let c := match vars with
          | some vs => FNode.quant "forall" vs c
          | none => c
        let tail ← addConditionLoop pf prob tm actParams lf restQ
        .ok ((timePointInterval startTiming, c) :: tail)
      else if exp.plen == 3 && c0.isTok "at"
          && ((exp.child 1).toOption.map (fun c => c.isTok "end")).getD false then do
        let e2 ← exp.child 2
        let c ← parseExp pf prob (some actParams) tm (vars.getD []) [] e2
        let c := match vars with
          | some vs => FNode.quant "forall" vs c
          | none => c
        let tail ← addConditionLoop pf prob tm actParams lf restQ
        .ok ((timePointInterval endTiming, c) :: tail)
      else if exp.plen == 3 && c0.isTok "over"
          && ((exp.child 1).toOption.map (fun c => c.isTok "all")).getD false then do
        let e2 ← exp.child 2
        let c ← parseExp pf prob (some actParams) tm (vars.getD []) [] e2
        let c := match vars with
          | some vs => FNode.quant "forall" vs c
          | none => c
        let tail ← addConditionLoop pf prob tm actParams lf restQ
        .ok ((openTimeInterval startTiming endTiming, c) :: tail)
      else .error (.synErrAt exp.locs exp.loce "Not able to handle")

/-- `_add_condition` entry point: process the `:condition` expression of a
durative action and append every produced condition. -/
def addCondition (lf pf : Nat) (prob : UPProblem) (tm : TypesMap)
    (act : DurativeAction) (exp : PExp) : Except PErr DurativeAction := do
  let cs ← addConditionLoop pf prob tm act.params lf [(exp, none)]
  .ok { act with conditions := act.conditions ++ cs }

/-! ## Duration constraints (`_parse_problem`, lines 1156-1193)

An `=` head sets a fixed duration from the third element; an `and` head scans
its conjuncts for exactly one first `>=` (lower bound) and one first `<=`
(upper bound), each contributing the parse of its third element, any other
conjunct or a missing bound being a `SyntaxError`; any other head is a
`SyntaxError`.  The first argument of `=` / `>=` / `<=` is never examined. -/

def parseDurationConjuncts (pf : Nat) (prob : UPProblem) (tm : TypesMap)
    (actParams : List (String × UPType)) (durLocs durLoce : Nat) :
    List PExp → Option FNode → Option FNode → Except PErr DurationInterval
  | [], lower, upper =>
      match lower, upper with
      | some l, some u => .ok (closedDurationInterval l u)
      | _, _ => .error (.synErrAt durLocs durLoce "Not able to handle duration constraint")
  | dj :: rest, lower, upper => do
      let dj0 ← dj.child 0
      if dj0.isTok ">=" && lower.isNone then do
        let e2 ← dj.child 2
        let l ← parseExp pf prob (some actParams) tm [] [] e2
        parseDurationConjuncts pf prob tm actParams durLocs durLoce rest (some l) upper
      else if dj0.isTok "<=" && upper.isNone then do
        let e2 ← dj.child 2
        let u ← parseExp pf prob (some actParams) tm [] [] e2
        parseDurationConjuncts pf prob tm actParams durLocs durLoce rest lower (some u)
      else .error (.synErrAt durLocs durLoce "Not able to handle duration constraint")

def parseDuration (pf : Nat) (prob : UPProblem) (tm : TypesMap)
    (actParams : List (String × UPType)) (dur : PExp) :
    Except PErr DurationInterval := do
  let c0 ← dur.child 0
  if c0.isTok "=" then do
    let e2 ← dur.child 2
    let v ← parseExp pf prob (some actParams) tm [] [] e2
    .ok (fixedDuration v)
  else if c0.isTok "and" then
    match dur with
    | .node _ _ (_ :: conjs) =>
        parseDurationConjuncts pf prob tm actParams dur.locs dur.loce conjs none none
    | _ => .error .attrErr
  else .error (.synErrAt dur.locs dur.loce "Not able to handle duration constraint")

/-! ## Type declarations (`_parse_problem`, lines 981-996)

The `:types` section is a list of lines, each holding one or more declared
names and an optional father name; a line without a father gets `object` when
the implicit object type is needed.  Declaring a name (case-insensitively)
already present in the table raises `SyntaxError` with no position
information. -/

def ciMemKeys {α : Type} (m : List (String × α)) (k : String) : Bool :=
  m.any (fun p => strToLower p.1 == strToLower k)

def collectTypeDeclsLine (father : Option String) :
    List (String × Option String) → List String →
    Except PErr (List (String × Option String))
  | acc, [] => .ok acc
  | acc, n :: ns =>
      if ciMemKeys acc n then .error (.synErr "Type is declared more than once")
      else collectTypeDeclsLine father (acc ++ [(n, father)]) ns

def collectTypeDeclsGo (otn : Bool) :
    List (String × Option String) → List (List String × Option String) →
    Except PErr (List (String × Option String))
  | acc, [] => .ok acc
  | acc, (names, father) :: rest => do
      let father := if father.isNone && otn then some "object" else father
      let acc1 ← collectTypeDeclsLine father acc names
      collectTypeDeclsGo otn acc1 rest

/-- The `type_declarations` extraction loop: `otn` is
`object_type_needed`. -/
def collectTypeDeclarations (otn : Bool)
    (typeLines : List (List String × Option String)) :
    Except PErr (List (String × Option String)) :=
  collectTypeDeclsGo otn [] typeLines

/-! ## Universal-effect expansion (`_parse_problem`, lines 1339-1381)

For each deferred `forall` effect of each action: re-parse the variable list,
resolve each group's type through `types_map` (an unguarded `dict` access, so
a missing type is a bare `KeyError` here), form the names `?x` and the type
domains `problem.objects(t)`, and add the effect body once per element of the
`itertools.product` of the domains, with the quantified names bound to the
tuple's objects. -/

def itertoolsProduct {α : Type} : List (List α) → List (List α)
  | [] => [[]]
  | d :: ds => d.flatMap (fun x => (itertoolsProduct ds).map (fun t => x :: t))

/-- Type resolution with the raw `types_map[...]` access of line 1348: a
missing type name propagates `KeyError`. -/
def resolveParamGroupsKeyErr (tm : TypesMap) :
    List (List String × Option String) → Except PErr (List (String × UPType))
  | [] => .ok []
  | (names, oty) :: rest => do
      let t ← match lookupCI tm (oty.getD "object") with
        | some t => pure t
        | none => Except.error (PErr.keyErr (oty.getD "object"))
      let tail ← resolveParamGroupsKeyErr tm rest
      .ok (names.map (fun n => (n, t)) ++ tail)

def expandTuplesInst (lf pf : Nat) (prob : UPProblem) (tm : TypesMap)
    (varNames : List String) (body : PExp) :
    InstantaneousAction → List (List (String × UPType)) →
    Except PErr InstantaneousAction
  | act, [] => .ok act
  | act, objs :: rest => do
      let asg := varNames.zip objs
      let (act1, _) ← addEffectInst lf pf prob tm act none body asg
      expandTuplesInst lf pf prob tm varNames body act1 rest

/-- Expansion of one deferred universal effect of an instantaneous action. -/
def expandUniversalInst (lf pf : Nat) (prob : UPProblem) (tm : TypesMap)
    (act : InstantaneousAction) (eff : PExp) : Except PErr InstantaneousAction := do
  let varlist ← eff.child 1
  let toks ← leafTokens varlist
  let resolved ← resolveParamGroupsKeyErr tm (parseParamGroups toks)
  let varNames := resolved.map (fun p => "?" ++ p.1)
  let varTypes := resolved.map (fun p => p.2)
  let body ← eff.child 2
  let tuples := itertoolsProduct (varTypes.map (fun t => prob.objectsOfType t))
  expandTuplesInst lf pf prob tm varNames body act tuples

def expandTuplesDur (lf pf : Nat) (prob : UPProblem) (tm : TypesMap)
    (varNames : List String) (body : PExp) :
    DurativeAction → List (List (String × UPType)) → Except PErr DurativeAction
  | act, [] => .ok act
  | act, objs :: rest => do
      let asg := varNames.zip objs
      let (act1, _) ← addTimedEffects lf pf prob tm act none body asg
      expandTuplesDur lf pf prob tm varNames body act1 rest

/-- Expansion of one deferred universal effect of a durative action. -/
def expandUniversalDur (lf pf : Nat) (prob : UPProblem) (tm : TypesMap)
    (act : DurativeAction) (eff : PExp) : Except PErr DurativeAction := do
  let varlist ← eff.child 1
  let toks ← leafTokens varlist
  let resolved ← resolveParamGroupsKeyErr tm (parseParamGroups toks)
  let varNames := resolved.map (fun p => "?" ++ p.1)
  let varTypes := resolved.map (fun p => p.2)
  let body ← eff.child 2
  let tuples := itertoolsProduct (varTypes.map (fun t => prob.objectsOfType t))
  expandTuplesDur lf pf prob tm varNames body act tuples

/-- The domain-only branch of `_parse_problem` (lines 1638-1642): with no
problem supplied, a non-empty `universal_assignments` table raises
`UPUsageError`. -/
def domainOnlyFinalize (ua : UAMap) : Except PErr Unit :=
  if ua.length != 0 then
    .error (.usageErr "The domain has quantified assignments")
  else .ok ()

/-! ## The action-cost eligibility analysis (lines 893-947) -/

/-- `PDDLReader._durative_action_has_cost` (lines 893-910). -/
def durativeActionHasCost (tc : Option FNode) (a : DurativeAction) : Bool :=
  if tcMem tc a.duration.lower || tcMem tc a.duration.upper then false
  else if a.conditions.any (fun pc => tcMem tc pc.2) then false
  else if a.effects.any (fun pe =>
      tcMem tc pe.2.fluent || tcMem tc pe.2.value || tcMem tc pe.2.condition)
    then false
  else true

/-- `PDDLReader._instantaneous_action_has_cost` (lines 912-928). -/
def instantaneousActionHasCost (tc : Option FNode) (a : InstantaneousAction) : Bool :=
  if a.preconditions.any (fun c => tcMem tc c) then false
  else if a.effects.any (fun e =>
      tcMem tc e.value || tcMem tc e.condition
      || (match tc with
          | some t =>
              e.fluent == t
              && !(e.isIncrease && e.condition.isTrue
                   && (e.value.isIntConstant || e.value.isRealConstant))
          | none => false))
    then false
  else true

/-- `PDDLReader._problem_has_actions_cost` (lines 930-947): the initial value
of the cost fluent must be the constant `0` (an unset or non-constant initial
value raises inside `initial_value` / `constant_value`), and the cost fluent
must not occur in timed effects or goals. -/
def problemHasActionsCost (prob : UPProblem) (tc : Option FNode) :
    Except PErr Bool :=
  match tc with
  | none => .ok false
  | some t => do
      let iv ← match prob.initialValue? t with
        | some v => pure v
        | none => Except.error PErr.probDefErr
      let cv ← match iv.constantValueRat with
        | some q => pure q
        | none => Except.error PErr.probDefErr
      if cv != 0 then .ok false
      else if prob.timedEffects.any (fun pe =>
          tcMem tc pe.2.fluent || tcMem tc pe.2.value || tcMem tc pe.2.condition)
        then .ok false
      else if prob.goals.any (fun g => tcMem tc g) then .ok false
      else .ok true

/-- The value of `has_actions_cost` after the domain has been processed: set
when a function named `total-cost` is declared (line 1092, which also sets
`self._totalcost`), then conjoined with the per-action checks as each action is
added (lines 1201, 1252). -/
def hasActionsCostDomain (prob : UPProblem) (tc : Option FNode) : Bool :=
  tc.isSome && prob.instActions.all (fun a => instantaneousActionHasCost tc a)
    && prob.durActions.all (fun a => durativeActionHasCost tc a)

/-! ## The metric normalizer (`_parse_problem`, lines 1574-1637) -/

/-- `optimization == "minimize" and len(metric) == 1 and metric[0].value ==
"total-time"` (with Python short-circuiting, so the child is only accessed
when the length is 1). -/
def metricIsTotalTime (metric : PExp) : Except PErr Bool :=
  if metric.plen == 1 then do
    let c0 ← metric.child 0
    .ok (c0.isTok "total-time")
  else .ok false

/-- The per-action cost-collection loop of the normalization branch: for each
instantaneous action, find its first effect on the cost fluent; record its
value in the cost table and delete it from the action; an action with no such
effect, or an increment different from `1`, defeats the plan-length
collapse. -/
def collectCostsGo (t : FNode) :
    List InstantaneousAction →
    (List InstantaneousAction × List (String × FNode) × Bool) →
    List InstantaneousAction × List (String × FNode) × Bool
  | [], (accA, accC, upl) => (accA, accC, upl)
  | a :: rest, (accA, accC, upl) =>
      match a.effects.find? (fun e => e.fluent == t) with
      | some cost =>
          let a1 := { a with effects := removeFirstBEq a.effects cost }
          let upl1 := if fnodeEqPyInt cost.value 1 then upl else false
          collectCostsGo t rest (accA ++ [a1], accC ++ [(a.name, cost.value)], upl1)
      | none => collectCostsGo t rest (accA ++ [a], accC, false)

def applyMetric (pf : Nat) (prob : UPProblem) (tm : TypesMap) (tc : Option FNode)
    (hasCost : Bool) (optimization : Option String) (m : Option PExp) :
    Except PErr UPProblem :=
  match m with
  | none => .ok prob
  | some metric => do
      let tt ← if optimization == some "minimize" then metricIsTotalTime metric
        else pure false
      if tt then
        .ok { prob with qualityMetrics := prob.qualityMetrics ++ [.minimizeMakespan] }
      else do
        let me ← parseExp pf prob none tm [] [] metric
        if hasCost && optimization == some "minimize"
            && (match tc with | some t => me == t | none => false) then do
          let t := tc.getD me
          let tcF ← match t with
            | .fluentApp f _ => pure f
            | _ => Except.error PErr.assertErr
          let fluents1 := removeFirstBEq prob.fluents tcF
          let init1 := prob.initialValues.filter (fun p => !(p.1 == t))
          let upl0 := prob.durActions.isEmpty
          let (acts1, costs, upl) := collectCostsGo t prob.instActions ([], [], upl0)
          let metric1 : QualityMetric :=
            if upl then .minimizeSequentialPlanLength
            else .minimizeActionCosts costs (.intConst 0)
          .ok { prob with
                fluents := fluents1
                initialValues := init1
                instActions := acts1
                qualityMetrics := prob.qualityMetrics ++ [metric1] }
        else if optimization == some "minimize" then
          .ok { prob with
                qualityMetrics := prob.qualityMetrics ++ [.minimizeExprOnFinalState me] }
        else if optimization == some "maximize" then
          .ok { prob with
                qualityMetrics := prob.qualityMetrics ++ [.maximizeExprOnFinalState me] }
        else .ok prob

/-- `has_actions_cost = has_actions_cost and self._problem_has_actions_cost(
problem)` (line 1574, with Python short-circuiting) followed by the metric
block. -/
def normalizeAndApplyMetric (pf : Nat) (prob : UPProblem) (tm : TypesMap)
    (tc : Option FNode) (optimization : Option String) (m : Option PExp) :
    Except PErr UPProblem := do
  let hc ← if hasActionsCostDomain prob tc then problemHasActionsCost prob tc
    else pure false
  applyMetric pf prob tm tc hc optimization m

/-! ## Reduction lemmas for the error monad -/

@[simp]
theorem upBindOk {ε α β : Type} (a : α) (f : α → Except ε β) :
    (Except.ok a >>= f : Except ε β) = f a := rfl

@[simp]
theorem upBindError {ε α β : Type} (e : ε) (f : α → Except ε β) :
    (Except.error e >>= f : Except ε β) = .error e := rfl

/-! ## Concrete instances used by the theorems below -/

def probEmpty : UPProblem := ⟨"e", [], [], [], [], [], [], [], []⟩

def p0 : UPFluent := ⟨"p", .bool, []⟩

def probP : UPProblem := ⟨"d", [p0], [], [], [], [], [], [], []⟩

def durAct0 : DurativeAction := ⟨"a", [], fixedDuration (.intConst 1), [], []⟩

/-- The parse tree of `(over all (p))`. -/
def overAllExp : PExp :=
  .node 0 20 [.leaf 1 5 "over", .leaf 6 9 "all", .node 10 13 [.leaf 11 12 "p"]]

/-- The parse tree of `(= x 7)`: an equality duration constraint whose first
argument is not `?duration`. -/
def durBad : PExp := .node 0 9 [.leaf 1 2 "=", .leaf 3 4 "x", .leaf 5 6 "7"]

def utT : UserType := .root "t"

def tT : UPType := .user utT

def pUnary : UPFluent := ⟨"p", .bool, [("x", tT)]⟩

/-- A problem declaring a unary fluent `p` over type `t` and the given objects
of type `t`. -/
def probC4 (os : List String) : UPProblem :=
  ⟨"d", [pUnary], os.map (fun o => (o, tT)), [], [], [], [], [], []⟩

/-- The parse tree of `(forall (?x - t) (p ?x))`. -/
def forallEff : PExp := .node 0 30 [.leaf 1 7 "forall",
  .node 8 16 [.leaf 9 11 "?x", .leaf 12 13 "-", .leaf 14 15 "t"],
  .node 17 28 [.leaf 18 19 "p", .leaf 20 22 "?x"]]

def act0 : InstantaneousAction := ⟨"a", [], [], []⟩

/-- The `total-cost` fluent as the reader declares it (a real-typed function
with no parameters, line 1091). -/
def tcF : UPFluent := ⟨"total-cost", .real none none, []⟩

def tcN : FNode := .fluentApp tcF []

/-- An action whose only effects are two unconditional `increase` effects on
`total-cost`, one of them by the negative constant `-5` (from PDDL
`(increase (total-cost) -5)`). -/
def actNeg : InstantaneousAction :=
  ⟨"a", [], [],
   [⟨tcN, .intConst (-5), emTRUE, .increase⟩, ⟨tcN, .intConst 2, emTRUE, .increase⟩]⟩

/-- The canonical cost effect `(increase (total-cost) 1)`. -/
def inc1 : UPEffect := ⟨tcN, .intConst 1, emTRUE, .increase⟩

def actA : InstantaneousAction := ⟨"a", [], [], [inc1]⟩

/-- A model matching every hypothesis of claim C3 as stated, whose goal
additionally mentions `total-cost`. -/
def probC3cex : UPProblem :=
  ⟨"pr", [tcF], [], [actA], [], [(tcN, .intConst 0)], [],
   [.opApp "<=" [tcN, .intConst 5]], []⟩

/-- The parse tree of the metric expression `(total-cost)`. -/
def metricTC : PExp := .node 0 12 [.leaf 1 11 "total-cost"]

def probC3ok : UPProblem :=
  ⟨"pr", [tcF], [], [actA], [], [(tcN, .intConst 0)], [], [], []⟩

/-! ## Claim C10 -/

/-- C10: an empty parenthesized expression `()` given to the expression
compiler (e.g. as an action precondition) compiles successfully to the boolean
constant true, for every problem, enclosing action, type table, scope,
assignment map and source span. -/
theorem c10_empty_expression_is_true (fuel : Nat) (prob : UPProblem)
    (act : Option (List (String × UPType))) (tm : TypesMap)
    (var : List (String × UPType)) (asg : List (String × (String × UPType)))
    (ls le : Nat) :
    parseExp (fuel + 1) prob act tm var asg (.node ls le []) = .ok (.boolConst true) := rfl

/-! ## Claim C8 -/

/-- C8: a bare token that resolves to nothing else and parses as an exact
rational compiles to an integer constant when the rational's denominator is 1
and to a real constant otherwise; in particular `3`, `3.0` and `3/1` all
compile to the integer constant 3, and `1.5` compiles to the real constant
3/2. -/
theorem c8_numeric_literals :
    (∀ (prob : UPProblem) (act : Option (List (String × UPType)))
      (var : List (String × UPType)) (asg : List (String × (String × UPType)))
      (ls le : Nat) (s : String) (q : Rat),
      strHeadIsQm s = false → asg.lookup s = none →
      prob.fluentByName s = none → prob.objectByName s = none →
      pyFraction s = .ok q →
      parseLeaf prob act var asg ls le s =
        .ok (if q.den == 1 then .intConst q.num else .realConst q))
    ∧ parseLeaf probEmpty none [] [] 0 1 "3" = .ok (.intConst 3)
    ∧ parseLeaf probEmpty none [] [] 0 3 "3.0" = .ok (.intConst 3)
    ∧ parseLeaf probEmpty none [] [] 0 3 "3/1" = .ok (.intConst 3)
    ∧ parseLeaf probEmpty none [] [] 0 3 "1.5" = .ok (.realConst (mkRat 3 2)) := by
  refine ⟨?_, rfl, rfl, rfl, rfl⟩
  intro prob act var asg ls le s q hq hasg hfl hob hfrac
  simp [parseLeaf, hq, hasg, hfl, hob, hfrac]

/-- Witness for C8: the universally quantified part applied to the token `7`
in the empty problem. -/
theorem c8_witness :
    parseLeaf probEmpty none [] [] 2 3 "7" =
      .ok (if (7 : Rat).den == 1 then .intConst (7 : Rat).num
           else .realConst (7 : Rat)) :=
  c8_numeric_literals.1 probEmpty none [] [] 2 3 "7" 7 rfl rfl rfl rfl rfl

/-! ## Claim C5

The resolution order of a bare leaf token is as the claim states; but the
"always raises an error carrying the token's source span" part fails on a
token with a zero denominator such as `3/0`: `Fraction` raises
`ZeroDivisionError`, line 534 catches only `ValueError`, and the escaping
error carries no position information. -/

/-- C5 (counterexample): the token `3/0` matches none of the six resolution
categories, yet compiling it raises a bare `ZeroDivisionError` (the `PErr`
constructor carries no source span), not an error carrying the token's
span. -/
theorem c5_counterexample :
    parseLeaf probEmpty none [] [] 5 8 "3/0" = .error .zeroDivErr := rfl

/-- C5 (amended): for every bare leaf token, resolution tries, in order:
bound quantifier variable, quantified-assignment object binding,
sigil-prefixed action/method parameter, declared fluent (zero-arity
application), declared object constant, then numeric literal; a token matching
none of these raises an error, never a default value, and the error carries
the token's source span except when the token is a rational literal with zero
denominator, which raises a span-free division error. -/
theorem c5_leaf_resolution_order (prob : UPProblem)
    (act : Option (List (String × UPType))) (var : List (String × UPType))
    (asg : List (String × (String × UPType))) (ls le : Nat) (tok : String) :
    (∀ t, strHeadIsQm tok = true → var.lookup (strTail tok) = some t →
      parseLeaf prob act var asg ls le tok = .ok (.varExp (strTail tok) t))
    ∧ (∀ o, (if strHeadIsQm tok then var.lookup (strTail tok) else none) = none →
        asg.lookup tok = some o →
        parseLeaf prob act var asg ls le tok = .ok (.objectExp o.1 o.2))
    ∧ (∀ ps t, strHeadIsQm tok = true → var.lookup (strTail tok) = none →
        asg.lookup tok = none → act = some ps → ps.lookup (strTail tok) = some t →
        parseLeaf prob act var asg ls le tok = .ok (.paramExp (strTail tok) t))
    ∧ (∀ ps, strHeadIsQm tok = true → var.lookup (strTail tok) = none →
        asg.lookup tok = none → act = some ps → ps.lookup (strTail tok) = none →
        parseLeaf prob act var asg ls le tok =
          .error (.synErrAt ls le "Undefined name found"))
    ∧ (∀ f, strHeadIsQm tok = false → asg.lookup tok = none →
        prob.fluentByName tok = some f → f.params = [] →
        parseLeaf prob act var asg ls le tok = .ok (.fluentApp f []))
    ∧ (∀ o, strHeadIsQm tok = false → asg.lookup tok = none →
        prob.fluentByName tok = none → prob.objectByName tok = some o →
        parseLeaf prob act var asg ls le tok = .ok (.objectExp o.1 o.2))
    ∧ (∀ q, strHeadIsQm tok = false → asg.lookup tok = none →
        prob.fluentByName tok = none → prob.objectByName tok = none →
        pyFraction tok = .ok q →
        parseLeaf prob act var asg ls le tok =
          .ok (if q.den == 1 then .intConst q.num else .realConst q))
    ∧ (strHeadIsQm tok = false → asg.lookup tok = none →
        prob.fluentByName tok = none → prob.objectByName tok = none →
        pyFraction tok = .error .valueErr →
        parseLeaf prob act var asg ls le tok =
          .error (.synErrAt ls le "Found invalid expression"))
    ∧ (strHeadIsQm tok = false → asg.lookup tok = none →
        prob.fluentByName tok = none → prob.objectByName tok = none →
        pyFraction tok = .error .zeroDivErr →
        parseLeaf prob act var asg ls le tok = .error .zeroDivErr) := by
  refine ⟨?_, ?_, ?_, ?_, ?_, ?_, ?_, ?_, ?_⟩
  · intro t h1 h2
    simp [parseLeaf, h1, h2]
  · intro o h1 h2
    simp only [parseLeaf, h1, h2]
  · intro ps t h1 h2 h3 h4 h5
    simp [parseLeaf, h1, h2, h3, h4, h5]
  · intro ps h1 h2 h3 h4 h5
    simp [parseLeaf, h1, h2, h3, h4, h5]
  · intro f h1 h2 h3 h4
    simp [parseLeaf, h1, h2, h3, emFluentExp, h4]
  · intro o h1 h2 h3 h4
    simp [parseLeaf, h1, h2, h3, h4]
  · intro q h1 h2 h3 h4 h5
    simp [parseLeaf, h1, h2, h3, h4, h5]
  · intro h1 h2 h3 h4 h5
    simp [parseLeaf, h1, h2, h3, h4, h5]
  · intro h1 h2 h3 h4 h5
    simp [parseLeaf, h1, h2, h3, h4, h5]

/-- Witness for C5: the first resolution step (bound quantifier variable)
applied to the token `?x` with `x` in scope. -/
theorem c5_witness :
    parseLeaf probEmpty none [("x", UPType.bool)] [] 0 2 "?x" =
      .ok (.varExp "x" UPType.bool) :=
  (c5_leaf_resolution_order probEmpty none [("x", UPType.bool)] [] 0 2 "?x").1
    UPType.bool rfl rfl

/-! ## Claim C7

The two canonical duration shapes parse as the claim states, but the reader
dispatches only on the operator tokens and never checks that the left-hand
argument of `=` / `>=` / `<=` is `?duration`; so `(= x 7)` — a duration
constraint of another shape — parses without error to the fixed duration 7.
Shapes whose head operator is neither `=` nor `and` do raise a hard error. -/

/-- C7 (counterexample): the duration constraint `(= x 7)`, which is not of
the form `(= ?duration 7)`, does not raise an error: it parses to the fixed
duration 7, because the left-hand argument is never examined. -/
theorem c7_counterexample :
    parseDuration 9 probEmpty [] [] durBad = .ok (fixedDuration (.intConst 7)) := rfl

/-- C7 (amended): `(and (>= _ 5) (<= _ 10))` parses to the closed duration
interval `[5, 10]` and `(= _ 7)` to the fixed duration 7, whatever stands in
the never-examined first argument positions; a duration whose head operator is
neither `=` nor `and` (or whose head cannot be read at all) raises a hard
error. -/
theorem c7_duration_parsing :
    (∀ (prob : UPProblem) (tm : TypesMap) (ap : List (String × UPType))
      (pf a b c d e f g h i j k l m n o p2 : Nat) (x y : PExp),
      prob.fluentByName "5" = none → prob.objectByName "5" = none →
      prob.fluentByName "10" = none → prob.objectByName "10" = none →
      parseDuration (pf + 1) prob tm ap
        (.node a b [.leaf c d "and",
          .node e f [.leaf g h ">=", x, .leaf i j "5"],
          .node k l [.leaf m n "<=", y, .leaf o p2 "10"]]) =
        .ok (closedDurationInterval (.intConst 5) (.intConst 10)))
    ∧ (∀ (prob : UPProblem) (tm : TypesMap) (ap : List (String × UPType))
        (pf a b c d e f : Nat) (x : PExp),
        prob.fluentByName "7" = none → prob.objectByName "7" = none →
        parseDuration (pf + 1) prob tm ap
          (.node a b [.leaf c d "=", x, .leaf e f "7"]) =
          .ok (fixedDuration (.intConst 7)))
    ∧ (∀ (prob : UPProblem) (tm : TypesMap) (ap : List (String × UPType))
        (pf : Nat) (dur : PExp) (e : PErr),
        dur.child 0 = .error e → parseDuration pf prob tm ap dur = .error e)
    ∧ (∀ (prob : UPProblem) (tm : TypesMap) (ap : List (String × UPType))
        (pf : Nat) (dur : PExp) (c0 : PExp),
        dur.child 0 = .ok c0 → c0.isTok "=" = false → c0.isTok "and" = false →
        parseDuration pf prob tm ap dur =
          .error (.synErrAt dur.locs dur.loce
            "Not able to handle duration constraint")) := by
  refine ⟨?_, ?_, ?_, ?_⟩
  · intro prob tm ap pf a b c d e f g h i j k l m n o p2 x y h5 h5o h10 h10o
    have e5 : parseExp (pf + 1) prob (some ap) tm [] [] (PExp.leaf i j "5")
        = .ok (.intConst 5) := by
      show parseLeaf prob (some ap) [] [] i j "5" = .ok (.intConst 5)
      unfold parseLeaf
      rw [h5, h5o]
      rfl
    have e10 : parseExp (pf + 1) prob (some ap) tm [] [] (PExp.leaf o p2 "10")
        = .ok (.intConst 10) := by
      show parseLeaf prob (some ap) [] [] o p2 "10" = .ok (.intConst 10)
      unfold parseLeaf
      rw [h10, h10o]
      rfl
    show parseDurationConjuncts (pf + 1) prob tm ap a b
      [.node e f [.leaf g h ">=", x, .leaf i j "5"],
       .node k l [.leaf m n "<=", y, .leaf o p2 "10"]] none none =
      .ok (closedDurationInterval (.intConst 5) (.intConst 10))
    simp [parseDurationConjuncts, PExp.child, PExp.isTok, PExp.valueStr?, e5, e10]
  · intro prob tm ap pf a b c d e f x h7 h7o
    have e7 : parseExp (pf + 1) prob (some ap) tm [] [] (PExp.leaf e f "7")
        = .ok (.intConst 7) := by
      show parseLeaf prob (some ap) [] [] e f "7" = .ok (.intConst 7)
      unfold parseLeaf
      rw [h7, h7o]
      rfl
    show (parseExp (pf + 1) prob (some ap) tm [] [] (PExp.leaf e f "7") >>=
      (fun v => Except.ok (fixedDuration v)) : Except PErr DurationInterval) =
      .ok (fixedDuration (.intConst 7))
    rw [e7]
    rfl
  · intro prob tm ap pf dur e h
    unfold parseDuration
    rw [h]
    rfl
  · intro prob tm ap pf dur c0 h h1 h2
    unfold parseDuration
    rw [h]
    simp only [upBindOk]
    rw [h1, h2]
    rfl

/-- Witness for C7: the three shapes at concrete inputs in the empty
problem. -/
theorem c7_witness :
    parseDuration 9 probEmpty [] []
      (.node 0 40 [.leaf 1 4 "and",
        .node 5 20 [.leaf 6 8 ">=", .leaf 9 18 "?duration", .leaf 19 20 "5"],
        .node 21 38 [.leaf 22 24 "<=", .leaf 25 34 "?duration", .leaf 35 37 "10"]]) =
      .ok (closedDurationInterval (.intConst 5) (.intConst 10)) :=
  c7_duration_parsing.1 probEmpty [] [] 8 0 40 1 4 5 20 6 8 19 20 21 38 22 24
    35 37 (.leaf 9 18 "?duration") (.leaf 25 34 "?duration") rfl rfl rfl rfl

/-! ## Claim C6 -/

/-- The lower-cased keys of a declaration table. -/
def keysLower (m : List (String × Option String)) : List String :=
  m.map (fun p => strToLower p.1)

/-- The lower-cased declared names of a `:types` section, in declaration
order. -/
def declaredNamesLower (typeLines : List (List String × Option String)) :
    List String :=
  (typeLines.flatMap (fun l => l.1)).map strToLower

theorem ciMemKeys_iff {α : Type} (m : List (String × α)) (k : String) :
    ciMemKeys m k = true ↔ strToLower k ∈ m.map (fun p => strToLower p.1) := by
  simp [ciMemKeys, List.any_eq_true, List.mem_map]

theorem collectTypeDeclsLine_ok {father : Option String} :
    ∀ (names : List String) (acc acc' : List (String × Option String)),
    collectTypeDeclsLine father acc names = .ok acc' →
    ((names.map strToLower).Nodup
      ∧ (∀ n ∈ names.map strToLower, n ∉ keysLower acc))
    ∧ keysLower acc' = keysLower acc ++ names.map strToLower := by
  intro names
  induction names with
  | nil =>
      intro acc acc' h
      simp only [collectTypeDeclsLine] at h
      cases h
      simp
  | cons n ns ih =>
      intro acc acc' h
      simp only [collectTypeDeclsLine] at h
      by_cases hm : ciMemKeys acc n = true
      · rw [if_pos hm] at h
        cases h
      · rw [if_neg hm] at h
        obtain ⟨⟨hnd, hfresh⟩, hkeys⟩ := ih (acc ++ [(n, father)]) acc' h
        have hkeysapp : keysLower (acc ++ [(n, father)]) =
            keysLower acc ++ [strToLower n] := by
          simp [keysLower]
        rw [hkeysapp] at hfresh hkeys
        have hnotin : strToLower n ∉ keysLower acc := by
          intro hc
          exact hm ((ciMemKeys_iff acc n).mpr hc)
        refine ⟨⟨?_, ?_⟩, ?_⟩
        · simp only [List.map_cons, List.nodup_cons]
          refine ⟨fun hc => ?_, hnd⟩
          have := hfresh _ hc
          simp at this
        · intro m hm2
          simp only [List.map_cons, List.mem_cons] at hm2
          cases hm2 with
          | inl he => rw [he]; exact hnotin
          | inr hmem =>
              intro hc
              exact (hfresh m hmem) (List.mem_append_left _ hc)
        · rw [hkeys]
          simp

theorem collectTypeDeclsGo_ok {otn : Bool} :
    ∀ (typeLines : List (List String × Option String))
      (acc r : List (String × Option String)),
    collectTypeDeclsGo otn acc typeLines = .ok r →
    (declaredNamesLower typeLines).Nodup
      ∧ ∀ n ∈ declaredNamesLower typeLines, n ∉ keysLower acc := by
  intro typeLines
  induction typeLines with
  | nil =>
      intro acc r _
      simp [declaredNamesLower]
  | cons line rest ih =>
      intro acc r h
      simp only [collectTypeDeclsGo] at h
      cases hline : collectTypeDeclsLine
          (if line.2.isNone && otn then some "object" else line.2) acc line.1 with
      | error e => rw [hline] at h; cases h
      | ok acc1 =>
          rw [hline] at h
          simp only [upBindOk] at h
          obtain ⟨⟨hnd1, hfresh1⟩, hkeys1⟩ := collectTypeDeclsLine_ok line.1 acc acc1 hline
          obtain ⟨hnd2, hfresh2⟩ := ih acc1 r h
          rw [hkeys1] at hfresh2
          have hflat : declaredNamesLower (line :: rest) =
              line.1.map strToLower ++ declaredNamesLower rest := by
            simp [declaredNamesLower]
          rw [hflat]
          constructor
          · rw [List.nodup_append]
            refine ⟨hnd1, hnd2, ?_⟩
            intro m hm1 hm2
            exact (hfresh2 m hm2) (List.mem_append_right _ hm1)
          · intro m hm
            rw [List.mem_append] at hm
            cases hm with
            | inl h1 => exact hfresh1 m h1
            | inr h2 => exact fun hc => (hfresh2 m h2) (List.mem_append_left _ hc)

theorem collectTypeDeclsLine_error {father : Option String} :
    ∀ (names : List String) (acc : List (String × Option String)) (e : PErr),
    collectTypeDeclsLine father acc names = .error e →
    e = .synErr "Type is declared more than once" := by
  intro names
  induction names with
  | nil =>
      intro acc e h
      simp only [collectTypeDeclsLine] at h
      cases h
  | cons n ns ih =>
      intro acc e h
      simp only [collectTypeDeclsLine] at h
      by_cases hm : ciMemKeys acc n = true
      · rw [if_pos hm] at h
        cases h
        rfl
      · rw [if_neg hm] at h
        exact ih _ e h

theorem collectTypeDeclsGo_error {otn : Bool} :
    ∀ (typeLines : List (List String × Option String))
      (acc : List (String × Option String)) (e : PErr),
    collectTypeDeclsGo otn acc typeLines = .error e →
    e = .synErr "Type is declared more than once" := by
  intro typeLines
  induction typeLines with
  | nil =>
      intro acc e h
      simp only [collectTypeDeclsGo] at h
      cases h
  | cons line rest ih =>
      intro acc e h
      simp only [collectTypeDeclsGo] at h
      cases hline : collectTypeDeclsLine
          (if line.2.isNone && otn then some "object" else line.2) acc line.1 with
      | error e1 =>
          rw [hline] at h
          simp only [upBindError] at h
          injection h with he
          subst he
          exact collectTypeDeclsLine_error line.1 acc e1 hline
      | ok acc1 =>
          rw [hline] at h
          simp only [upBindOk] at h
          exact ih acc1 e h

/-- C6: a `:types` section that declares the same type name twice — in any
order, with identical or different declarations, and even when the two
spellings differ only in letter case — always makes the reader fail with the
duplicate-declaration `SyntaxError`, whether or not the implicit `object` root
type is needed. -/
theorem c6_duplicate_type_declaration (otn : Bool)
    (typeLines : List (List String × Option String))
    (hdup : ¬ (declaredNamesLower typeLines).Nodup) :
    collectTypeDeclarations otn typeLines =
      .error (.synErr "Type is declared more than once") := by
  cases h : collectTypeDeclarations otn typeLines with
  | ok r =>
      exact absurd (collectTypeDeclsGo_ok typeLines [] r h).1 hdup
  | error e =>
      rw [collectTypeDeclsGo_error typeLines [] e h]

/-- Witness for C6: the section `(:types A)` `(:types a)` — the same name
declared twice, differing only in letter case — is rejected. -/
theorem c6_witness :
    collectTypeDeclarations false [(["A"], none), (["a"], none)] =
      .error (.synErr "Type is declared more than once") :=
  c6_duplicate_type_declaration false [(["A"], none), (["a"], none)] (by decide)

/-! ## Claim C1

`_add_condition` attaches an `over all` condition to
`OpenTimeInterval(StartTiming(), EndTiming())` (lines 712-715) — an OPEN
interval, not the closed one the claim states. -/

theorem exists_of_bind_ok {ε α β : Type} {ea : Except ε α} {f : α → Except ε β}
    {r : β} (h : (ea >>= f) = .ok r) : ∃ a, ea = .ok a ∧ f a = .ok r := by
  cases ea with
  | ok a => exact ⟨a, rfl, h⟩
  | error e => exact absurd h (by simp)

/-- Every interval ever produced by the condition-assembler loop is the start
point, the end point, or the open start-to-end interval. -/
theorem addConditionLoop_intervals (pf : Nat) (prob : UPProblem) (tm : TypesMap)
    (ap : List (String × UPType)) :
    ∀ (lf : Nat) (queue : List (PExp × Option (List (String × UPType))))
      (res : List (TimeInterval × FNode)),
    addConditionLoop pf prob tm ap lf queue = .ok res →
    ∀ pr ∈ res, pr.1 = timePointInterval startTiming
      ∨ pr.1 = timePointInterval endTiming
      ∨ pr.1 = openTimeInterval startTiming endTiming := by
  intro lf
  induction lf with
  | zero =>
      intro queue res h
      cases queue with
      | nil =>
          simp only [addConditionLoop] at h
          injection h with he
          subst he
          intro pr hpr
          cases hpr
      | cons q rest =>
          exact absurd h (by simp [addConditionLoop])
  | succ lf ih =>
      intro queue res h
      cases queue with
      | nil =>
          simp only [addConditionLoop] at h
          injection h with he
          subst he
          intro pr hpr
          cases hpr
      | cons q rest =>
          obtain ⟨exp, vars⟩ := q
          simp only [addConditionLoop] at h
          obtain ⟨c0, hc0, h⟩ := exists_of_bind_ok h
          split at h
          · -- "and": push the children
            split at h
            · exact ih _ _ h
            · exact absurd h (by simp)
          · split at h
            · -- "forall": extend the scope and push the body
              obtain ⟨varlist, _, h⟩ := exists_of_bind_ok h
              obtain ⟨toks, _, h⟩ := exists_of_bind_ok h
              obtain ⟨newVarsL, _, h⟩ := exists_of_bind_ok h
              obtain ⟨body, _, h⟩ := exists_of_bind_ok h
              exact ih _ _ h
            · split at h
              · -- "at start"
                obtain ⟨e2, _, h⟩ := exists_of_bind_ok h
                obtain ⟨c, _, h⟩ := exists_of_bind_ok h
                obtain ⟨tail, htail, h⟩ := exists_of_bind_ok h
                injection h with he
                subst he
                intro pr hpr
                cases hpr with
                | head => left; rfl
                | tail _ hmem => exact ih _ _ htail pr hmem
              · split at h
                · -- "at end"
                  obtain ⟨e2, _, h⟩ := exists_of_bind_ok h
                  obtain ⟨c, _, h⟩ := exists_of_bind_ok h
                  obtain ⟨tail, htail, h⟩ := exists_of_bind_ok h
                  injection h with he
                  subst he
                  intro pr hpr
                  cases hpr with
                  | head => right; left; rfl
                  | tail _ hmem => exact ih _ _ htail pr hmem
                · split at h
                  · -- "over all"
                    obtain ⟨e2, _, h⟩ := exists_of_bind_ok h
                    obtain ⟨c, _, h⟩ := exists_of_bind_ok h
                    obtain ⟨tail, htail, h⟩ := exists_of_bind_ok h
                    injection h with he
                    subst he
                    intro pr hpr
                    cases hpr with
                    | head => right; right; rfl
                    | tail _ hmem => exact ih _ _ htail pr hmem
                  · exact absurd h (by simp)

/-- C1 (counterexample): for the durative action condition `(over all (p))`,
the assembler attaches the condition to
`OpenTimeInterval(StartTiming(), EndTiming())`, which is not the closed
start-to-end interval the claim states (an interval records whether each side
is open; the attached one is open on both sides). -/
theorem c1_counterexample :
    addCondition 9 9 probP [] durAct0 overAllExp =
      .ok { durAct0 with conditions :=
        [(openTimeInterval startTiming endTiming, .fluentApp p0 [])] }
    ∧ openTimeInterval startTiming endTiming ≠
        closedTimeInterval startTiming endTiming :=
  ⟨rfl, by decide⟩

/-- C1 (amended): a condition tagged `over all` in the `:condition` section of
a durative action is attached to the OPEN interval spanning from the action's
start timing to its end timing; moreover every interval the condition
assembler ever attaches is the start point, the end point, or that open
interval — never a closed start-to-end interval. -/
theorem c1_over_all_open_interval :
    (∀ (lf pf : Nat) (prob : UPProblem) (tm : TypesMap) (act : DurativeAction)
      (ls le l1 l2 l3 l4 : Nat) (body : PExp) (c : FNode),
      parseExp pf prob (some act.params) tm [] [] body = .ok c →
      addCondition (lf + 1) pf prob tm act
        (.node ls le [.leaf l1 l2 "over", .leaf l3 l4 "all", body]) =
        .ok { act with conditions :=
          act.conditions ++ [(openTimeInterval startTiming endTiming, c)] })
    ∧ (∀ (pf : Nat) (prob : UPProblem) (tm : TypesMap)
        (ap : List (String × UPType)) (lf : Nat)
        (queue : List (PExp × Option (List (String × UPType))))
        (res : List (TimeInterval × FNode)),
        addConditionLoop pf prob tm ap lf queue = .ok res →
        ∀ pr ∈ res, pr.1 ≠ closedTimeInterval startTiming endTiming) := by
  constructor
  · intro lf pf prob tm act ls le l1 l2 l3 l4 body c h
    have hloop : addConditionLoop pf prob tm act.params (lf + 1)
        [(.node ls le [.leaf l1 l2 "over", .leaf l3 l4 "all", body], none)] =
        .ok [(openTimeInterval startTiming endTiming, c)] := by
      show (parseExp pf prob (some act.params) tm [] [] body >>= fun cnd =>
        addConditionLoop pf prob tm act.params lf [] >>= fun tail =>
        Except.ok ((openTimeInterval startTiming endTiming, cnd) :: tail)) =
        .ok [(openTimeInterval startTiming endTiming, c)]
      rw [h]
      cases lf <;> rfl
    unfold addCondition
    rw [hloop]
    rfl
  · intro pf prob tm ap lf queue res h pr hpr hclosed
    have := addConditionLoop_intervals pf prob tm ap lf queue res h pr hpr
    rw [hclosed] at this
    rcases this with h1 | h1 | h1 <;> exact absurd h1 (by decide)

/-- Witness for C1: the amended theorem applied to the concrete condition
`(over all (p))` on a fresh durative action, and the interval invariant on the
result. -/
theorem c1_witness :
    addCondition 9 9 probP [] durAct0 overAllExp =
      .ok { durAct0 with conditions :=
        [(openTimeInterval startTiming endTiming, .fluentApp p0 [])] } :=
  c1_over_all_open_interval.1 8 9 probP [] durAct0 0 20 1 5 6 9
    (.node 10 13 [.leaf 11 12 "p"]) (.fluentApp p0 []) rfl

/-! ## Claim C2

`_instantaneous_action_has_cost` checks, per effect, that the cost fluent does
not occur in the effect's value or condition and that an effect targeting the
cost fluent is an unconditional `increase` by an integer or real constant — it
never checks the constant's sign, and it never counts how many effects target
the cost fluent. -/

/-- The declarative characterization of the per-action cost-eligibility check
(this is the spec-side statement the implementation is compared against). -/
def CostEligibleSpec (tc : FNode) (a : InstantaneousAction) : Prop :=
  (∀ c ∈ a.preconditions, ((fluentExpsIn c).contains tc) = false)
  ∧ ∀ e ∈ a.effects,
      ((fluentExpsIn e.value).contains tc) = false
      ∧ ((fluentExpsIn e.condition).contains tc) = false
      ∧ ((e.fluent == tc) = true →
          (e.isIncrease && e.condition.isTrue
            && (e.value.isIntConstant || e.value.isRealConstant)) = true)

theorem instantaneousActionHasCost_iff (tc : FNode) (a : InstantaneousAction) :
    instantaneousActionHasCost (some tc) a = true ↔ CostEligibleSpec tc a := by
  unfold instantaneousActionHasCost CostEligibleSpec tcMem
  by_cases hA : (a.preconditions.any fun c => (fluentExpsIn c).contains tc) = true
  · rw [if_pos hA]
    simp only [Bool.false_eq_true, false_iff, not_and]
    intro hpre
    rw [List.any_eq_true] at hA
    obtain ⟨c, hc, hct⟩ := hA
    exact fun _ => absurd (hpre c hc) (by simp [hct])
  · rw [if_neg hA]
    rw [Bool.not_eq_true, List.any_eq_false] at hA
    by_cases hB : (a.effects.any fun e =>
        (fluentExpsIn e.value).contains tc || (fluentExpsIn e.condition).contains tc
        || (e.fluent == tc
            && !(e.isIncrease && e.condition.isTrue
                 && (e.value.isIntConstant || e.value.isRealConstant)))) = true
    · rw [if_pos hB]
      simp only [Bool.false_eq_true, false_iff, not_and]
      intro _
      rw [List.any_eq_true] at hB
      obtain ⟨e, he, het⟩ := hB
      intro hall
      obtain ⟨hv, hc2, himp⟩ := hall e he
      simp only [hv, hc2, Bool.or_self, Bool.false_or, Bool.and_eq_true,
        Bool.not_eq_true'] at het
      exact absurd (himp het.1) (by simp [het.2])
    · rw [if_neg hB]
      simp only [true_iff]
      rw [Bool.not_eq_true, List.any_eq_false] at hB
      refine ⟨fun c hc => by simpa using hA c hc, fun e he => ?_⟩
      have hthis : ((fluentExpsIn e.value).contains tc
          || (fluentExpsIn e.condition).contains tc
          || (e.fluent == tc
              && !(e.isIncrease && e.condition.isTrue
                   && (e.value.isIntConstant || e.value.isRealConstant)))) = false := by
        rw [Bool.eq_false_iff]
        exact hB e he
      simp only [Bool.or_eq_false_iff, Bool.and_eq_false_iff] at hthis
      obtain ⟨⟨hv, hc2⟩, hrest⟩ := hthis
      refine ⟨hv, hc2, fun hf => ?_⟩
      cases hrest with
      | inl h1 => rw [hf] at h1; cases h1
      | inr h2 =>
          cases hcase : (e.isIncrease && e.condition.isTrue
              && (e.value.isIntConstant || e.value.isRealConstant)) with
          | true => rfl
          | false =>
              rw [hcase] at h2
              exact absurd h2 (by decide)

/-- C2 (counterexample): an action whose effects are two separate
unconditional `increase` effects on the cost fluent, one of them by the
negative constant `-5`, is nonetheless classified cost-eligible by
`_instantaneous_action_has_cost` — the claim says it must not be. -/
theorem c2_counterexample :
    instantaneousActionHasCost (some tcN) actNeg = true := rfl

/-- C2 (amended): the per-action cost-eligibility check classifies an action
as cost-eligible iff no precondition mentions the cost fluent, no effect's
value or condition mentions it, and every effect targeting the cost fluent is
an unconditional `increase` whose increment is an integer or real constant;
the sign of the constant is not checked and several increase effects on the
cost fluent are allowed. -/
theorem c2_cost_eligibility (tc : FNode) (a : InstantaneousAction) :
    instantaneousActionHasCost (some tc) a = true ↔ CostEligibleSpec tc a :=
  instantaneousActionHasCost_iff tc a

/-- Witness for C2: the characterization applied to the two-negative-increase
action of the counterexample. -/
theorem c2_witness : CostEligibleSpec tcN actNeg :=
  (c2_cost_eligibility tcN actNeg).mp rfl

/-! ## Claim C4 -/

/-- The body `(p ?x)` of the universal effect `forallEff`. -/
def bodyC4 : PExp := .node 17 28 [.leaf 18 19 "p", .leaf 20 22 "?x"]

/-- The concrete effect instance produced for the object `o`. -/
def effC4 (o : String) : UPEffect :=
  ⟨.fluentApp pUnary [.objectExp o tT], emTRUE, emTRUE, .assign⟩

theorem sumConstMap {α : Type} (c : Nat) (l : List α) :
    (l.map (fun _ => c)).sum = l.length * c := by
  induction l with
  | nil => simp
  | cons a l ih => simp [ih, Nat.succ_mul, Nat.add_comm]

theorem itertoolsProduct_length {α : Type} (ds : List (List α)) :
    (itertoolsProduct ds).length = (ds.map List.length).prod := by
  induction ds with
  | nil => rfl
  | cons d ds ih =>
      show (d.flatMap fun x => (itertoolsProduct ds).map (fun t => x :: t)).length = _
      rw [List.length_flatMap]
      simp only [Function.comp_def]
      have hmap : (d.map fun x => ((itertoolsProduct ds).map (fun t => x :: t)).length)
          = d.map (fun _ => (ds.map List.length).prod) := by
        apply List.map_congr_left
        intro x _
        rw [List.length_map, ih]
      rw [hmap, sumConstMap, List.map_cons, List.prod_cons]

theorem flatMapSingletonEqMap {α : Type} (l : List α) :
    l.flatMap (fun x => [[x]]) = l.map (fun x => [x]) := by
  induction l with
  | nil => rfl
  | cons x xs ih =>
      show [[x]] ++ xs.flatMap (fun x => [[x]]) = [x] :: xs.map (fun x => [x])
      rw [ih]
      rfl

theorem itertoolsProduct_single {α : Type} (l : List α) :
    itertoolsProduct [l] = l.map (fun x => [x]) := by
  show l.flatMap (fun x => (itertoolsProduct []).map (fun t => x :: t)) = _
  show l.flatMap (fun x => [[x]]) = _
  exact flatMapSingletonEqMap l

theorem probC4_objects (os : List String) :
    (probC4 os).objectsOfType tT = os.map (fun o => (o, tT)) := by
  induction os with
  | nil => rfl
  | cons o os ih =>
      simp only [probC4, UPProblem.objectsOfType, List.map_cons] at ih ⊢
      rw [List.filter_cons]
      simp [ih]

theorem c4_step (os : List String) (act : InstantaneousAction) (o : String) :
    addEffectInst 9 9 (probC4 os) [("t", tT)] act none bodyC4 [("?x", (o, tT))] =
      .ok ({ act with effects := act.effects ++ [effC4 o] }, none) := rfl

theorem c4_fold (os : List String) :
    ∀ (ts : List String) (act : InstantaneousAction),
    expandTuplesInst 9 9 (probC4 os) [("t", tT)] ["?x"] bodyC4 act
      (ts.map (fun o => [(o, tT)])) =
      .ok { act with effects := act.effects ++ ts.map effC4 } := by
  intro ts
  induction ts with
  | nil =>
      intro act
      simp [expandTuplesInst]
  | cons o ts ih =>
      intro act
      simp only [List.map_cons, expandTuplesInst, List.zip_cons_cons,
        List.zip_nil_right]
      rw [c4_step os act o]
      simp only [upBindOk]
      rw [ih]
      simp

/-- C4: a universally quantified effect, expanded once the problem is known,
is materialized into exactly one concrete effect instance per element of the
Cartesian product of the quantified variables' object domains — for a single
variable over a type with N declared objects, exactly N instances; while a
`forall` effect encountered during domain parsing is only recorded in the
deferred table, and finalizing a domain-only parse with a non-empty deferred
table raises the `UPUsageError`. -/
theorem c4_universal_effect_expansion :
    (∀ {α : Type} (ds : List (List α)),
      (itertoolsProduct ds).length = (ds.map List.length).prod)
    ∧ (∀ os : List String, ∃ act1,
        expandUniversalInst 9 9 (probC4 os) [("t", tT)] act0 forallEff = .ok act1
        ∧ act1.effects.length = os.length)
    ∧ (∀ (pf : Nat) (prob : UPProblem) (tm : TypesMap)
        (ap : List (String × UPType)) (asg : List (String × (String × UPType)))
        (lf : Nat) (cond : FNode) (ls le l1 l2 : Nat) (rest : List PExp),
        addEffectLoop pf prob tm ap true asg (lf + 1)
          [(.node ls le (.leaf l1 l2 "forall" :: rest), cond)] =
          .ok ([], [.node ls le (.leaf l1 l2 "forall" :: rest)]))
    ∧ (∀ ua : UAMap, ua ≠ [] →
        domainOnlyFinalize ua =
          .error (.usageErr "The domain has quantified assignments")) := by
  refine ⟨fun ds => itertoolsProduct_length ds, ?_, ?_, ?_⟩
  · intro os
    refine ⟨{ act0 with effects := act0.effects ++ os.map effC4 }, ?_, by simp [act0]⟩
    show (do
      let tuples := itertoolsProduct
        (([tT].map (fun t => (probC4 os).objectsOfType t)))
      expandTuplesInst 9 9 (probC4 os) [("t", tT)] ["?x"] bodyC4 act0 tuples :
        Except PErr InstantaneousAction) = _
    simp only [List.map_cons, List.map_nil, probC4_objects]
    rw [itertoolsProduct_single]
    rw [show ((os.map (fun o => (o, tT))).map (fun x => [x]))
        = os.map (fun o => [(o, tT)]) from by rw [List.map_map]; rfl]
    rw [c4_fold os os act0]
  · intro pf prob tm ap asg lf cond ls le l1 l2 rest
    cases lf <;> rfl
  · intro ua h
    cases ua with
    | nil => exact absurd rfl h
    | cons p rest => rfl

/-- Witness for C4: three objects of the quantified type produce exactly three
concrete effect instances, and a one-entry deferred table makes the
domain-only finalization fail. -/
theorem c4_witness :
    (∃ act1,
      expandUniversalInst 9 9 (probC4 ["o1", "o2", "o3"]) [("t", tT)] act0
        forallEff = .ok act1 ∧ act1.effects.length = ["o1", "o2", "o3"].length)
    ∧ domainOnlyFinalize [("a", [forallEff])] =
        .error (.usageErr "The domain has quantified assignments") :=
  ⟨c4_universal_effect_expansion.2.1 ["o1", "o2", "o3"],
   c4_universal_effect_expansion.2.2.2 [("a", [forallEff])] (by simp)⟩

/-! ## Helper lemmas for the metric normalizer (C3) -/

theorem find?_of_filter {α : Type} (p : α → Bool) (x : α) :
    ∀ (l xs : List α), l.filter p = x :: xs → l.find? p = some x := by
  intro l
  induction l with
  | nil => intro xs h; simp at h
  | cons a l ih =>
      intro xs h
      by_cases hpa : p a = true
      · rw [List.filter_cons_of_pos hpa] at h
        injection h with h1 h2
        subst h1
        exact List.find?_cons_of_pos _ hpa
      · rw [List.filter_cons_of_neg hpa] at h
        rw [List.find?_cons_of_neg _ hpa]
        exact ih xs h

theorem filter_remove_single {α : Type} [BEq α] (p : α → Bool) (x : α)
    (hx : ∀ y, (y == x) = true → p y = true) (hrefl : (x == x) = true) :
    ∀ l : List α, l.filter p = [x] → (removeFirstBEq l x).filter p = [] := by
  intro l
  induction l with
  | nil => intro h; simp at h
  | cons a l ih =>
      intro h
      by_cases hpa : p a = true
      · rw [List.filter_cons_of_pos hpa] at h
        injection h with h1 h2
        subst h1
        show (if (a == a) = true then l else a :: removeFirstBEq l a).filter p = []
        rw [if_pos hrefl]
        exact h2
      · have hax : (a == x) = false := by
          cases hax : (a == x) with
          | true => exact absurd (hx a hax) hpa
          | false => rfl
        rw [List.filter_cons_of_neg hpa] at h
        show (if (a == x) = true then l else a :: removeFirstBEq l x).filter p = []
        rw [hax]
        simp only [Bool.false_eq_true, if_false]
        rw [List.filter_cons_of_neg hpa]
        exact ih h

theorem removeFirst_not_mem {α : Type} [DecidableEq α] (x : α) :
    ∀ l : List α, l.count x ≤ 1 → x ∉ removeFirstBEq l x := by
  intro l
  induction l with
  | nil => intro _; show x ∉ ([] : List α); simp
  | cons a l ih =>
      intro hc
      by_cases hax : a = x
      · subst hax
        rw [List.count_cons_self] at hc
        have h0 : l.count a = 0 := by omega
        show a ∉ (if (a == a) = true then l else a :: removeFirstBEq l a)
        rw [if_pos (by simp)]
        exact List.count_eq_zero.mp h0
      · have hne : (a == x) = false := by simp [hax]
        show x ∉ (if (a == x) = true then l else a :: removeFirstBEq l x)
        rw [hne]
        simp only [Bool.false_eq_true, if_false, List.mem_cons, not_or]
        refine ⟨fun h => hax h.symm, ih ?_⟩
        rw [List.count_cons_of_ne (fun h => hax h.symm)] at hc
        exact hc

/-- An effect comparing equal (Python `==`) to the unit-increase effect
`inc1` touches the cost fluent: the first conjunct of `UPEffect.beq`. -/
theorem beq_inc1_fluent (y : UPEffect) (h : (y == inc1) = true) :
    (y.fluent == tcN) = true := by
  have h2 : (y.fluent == inc1.fluent && y.value == inc1.value
      && y.condition == inc1.condition && y.kind == inc1.kind) = true := h
  simp only [Bool.and_eq_true] at h2
  exact h2.1.1.1

/-- An action whose cost-touching effects are exactly the unit increase, with
the cost fluent in no precondition and no effect value or condition, passes
`_instantaneous_action_has_cost`. -/
theorem costEffects_hasCost (a : InstantaneousAction)
    (heff : a.effects.filter (fun e => e.fluent == tcN) = [inc1])
    (hpre : a.preconditions.any (fun c => tcMem (some tcN) c) = false)
    (hval : a.effects.any (fun e =>
      tcMem (some tcN) e.value || tcMem (some tcN) e.condition) = false) :
    instantaneousActionHasCost (some tcN) a = true := by
  have h2 : a.effects.any (fun e =>
      tcMem (some tcN) e.value || tcMem (some tcN) e.condition
      || (e.fluent == tcN
          && !(e.isIncrease && e.condition.isTrue
               && (e.value.isIntConstant || e.value.isRealConstant)))) = false := by
    rw [List.any_eq_false]
    intro e he
    have hvc : (tcMem (some tcN) e.value || tcMem (some tcN) e.condition) = false :=
      Bool.eq_false_iff.mpr (List.any_eq_false.mp hval e he)
    cases hfe : (e.fluent == tcN) with
    | false => simp [hvc, hfe]
    | true =>
        have hmem : e ∈ a.effects.filter (fun e => e.fluent == tcN) :=
          List.mem_filter.mpr ⟨he, hfe⟩
        rw [heff] at hmem
        have he1 : e = inc1 := by simpa using hmem
        subst he1
        simp [hvc]
        exact ⟨⟨rfl, rfl⟩, fun h => absurd h (by decide)⟩
  show (if a.preconditions.any (fun c => tcMem (some tcN) c) then false
        else if a.effects.any (fun e =>
            tcMem (some tcN) e.value || tcMem (some tcN) e.condition
            || (e.fluent == tcN
                && !(e.isIncrease && e.condition.isTrue
                     && (e.value.isIntConstant || e.value.isRealConstant))))
          then false
        else true) = true
  rw [hpre, h2]
  rfl

/-- The domain-side `has_actions_cost` flag holds for a problem whose
instantaneous actions all pass the per-action check and that has no durative
action. -/
theorem hasActionsCostDomain_of_good (prob : UPProblem)
    (hdur : prob.durActions = [])
    (heff : ∀ a ∈ prob.instActions,
      a.effects.filter (fun e => e.fluent == tcN) = [inc1])
    (hpre : ∀ a ∈ prob.instActions,
      a.preconditions.any (fun c => tcMem (some tcN) c) = false)
    (hval : ∀ a ∈ prob.instActions, a.effects.any (fun e =>
      tcMem (some tcN) e.value || tcMem (some tcN) e.condition) = false) :
    hasActionsCostDomain prob (some tcN) = true := by
  unfold hasActionsCostDomain
  rw [hdur]
  have hall : prob.instActions.all
      (fun a => instantaneousActionHasCost (some tcN) a) = true := by
    rw [List.all_eq_true]
    intro a ha
    exact costEffects_hasCost a (heff a ha) (hpre a ha) (hval a ha)
  rw [hall]
  rfl

/-- `_problem_has_actions_cost` accepts a problem whose cost fluent starts at
the constant `0` and appears in no timed effect and no goal. -/
theorem problemHasActionsCost_of_good (prob : UPProblem)
    (hinit : prob.initialValue? tcN = some (.intConst 0))
    (hte : prob.timedEffects.any (fun pe =>
      tcMem (some tcN) pe.2.fluent || tcMem (some tcN) pe.2.value
        || tcMem (some tcN) pe.2.condition) = false)
    (hgoal : prob.goals.any (fun g => tcMem (some tcN) g) = false) :
    problemHasActionsCost prob (some tcN) = .ok true := by
  show (do
    let iv ← match prob.initialValue? tcN with
      | some v => pure v
      | none => Except.error PErr.probDefErr
    let cv ← match iv.constantValueRat with
      | some q => pure q
      | none => Except.error PErr.probDefErr
    if cv != 0 then Except.ok false
    else if prob.timedEffects.any (fun pe =>
        tcMem (some tcN) pe.2.fluent || tcMem (some tcN) pe.2.value
          || tcMem (some tcN) pe.2.condition) then Except.ok false
    else if prob.goals.any (fun g => tcMem (some tcN) g) then Except.ok false
    else Except.ok true : Except PErr Bool) = .ok true
  rw [hinit]
  show (if prob.timedEffects.any (fun pe =>
        tcMem (some tcN) pe.2.fluent || tcMem (some tcN) pe.2.value
          || tcMem (some tcN) pe.2.condition) then Except.ok false
    else if prob.goals.any (fun g => tcMem (some tcN) g) then Except.ok false
    else Except.ok true : Except PErr Bool) = .ok true
  rw [hte, hgoal]
  rfl

theorem parseExpListRev_nil (prob : UPProblem)
    (act : Option (List (String × UPType))) (tm : TypesMap)
    (var : List (String × UPType)) (asg : List (String × (String × UPType)))
    (fuel : Nat) :
    parseExpListRev prob act tm var asg fuel [] = .ok [] := by
  cases fuel <;> rfl

/-- Compiling the one-token metric body `(total-cost)` resolves the token as a
zero-arity fluent application of the declared `total-cost` fluent. -/
theorem parseExp_metricTC (pf : Nat) (prob : UPProblem)
    (hfl : prob.fluentByName "total-cost" = some tcF) :
    parseExp (pf + 1) prob none [] [] [] metricTC = .ok tcN := by
  have hhf : prob.hasFluent "total-cost" = true := by
    unfold UPProblem.hasFluent
    rw [hfl]
    rfl
  show parseExpGo prob none [] [] [] (pf + 1) metricTC = .ok tcN
  show (if prob.hasFluent "total-cost" then
          match prob.fluentByName "total-cost" with
          | some f => do
              let args ← parseExpListRev prob none [] [] [] pf []
              match emFluentExp f args with
              | .ok v => Except.ok v
              | .error _ => Except.error (.synErrAt 0 12 "bad fluent application")
          | none => Except.error PErr.assertErr
        else if (([] : List (String × (String × UPType))).lookup
            "total-cost").isSome then
          if ([PExp.leaf 1 11 "total-cost"] : List PExp).length == 1 then
            match ([] : List (String × (String × UPType))).lookup "total-cost" with
            | some o => Except.ok (.objectExp o.1 o.2)
            | none => Except.error PErr.assertErr
          else Except.error PErr.assertErr
        else if ([PExp.leaf 1 11 "total-cost"] : List PExp).length == 1 then
          parseExpGo prob none [] [] [] pf (.leaf 1 11 "total-cost")
        else Except.error (.synErrAt 0 12 "Not able to handle")) = .ok tcN
  rw [hhf, hfl]
  simp only [if_true]
  rw [parseExpListRev_nil]
  rfl

/-- The cost-collection loop over actions whose cost-touching effects are
exactly the unit increase: the plan-length flag survives, and every returned
action has no effect left on the cost fluent. -/
theorem collectCostsGo_good :
    ∀ l : List InstantaneousAction,
    (∀ a ∈ l, a.effects.filter (fun e => e.fluent == tcN) = [inc1]) →
    ∀ (accA : List InstantaneousAction) (accC : List (String × FNode)) (upl : Bool),
    (∀ a ∈ accA, a.effects.filter (fun e => e.fluent == tcN) = []) →
    (collectCostsGo tcN l (accA, accC, upl)).2.2 = upl ∧
    ∀ a ∈ (collectCostsGo tcN l (accA, accC, upl)).1,
      a.effects.filter (fun e => e.fluent == tcN) = [] := by
  intro l
  induction l with
  | nil =>
      intro _ accA accC upl hacc
      exact ⟨rfl, hacc⟩
  | cons a rest ih =>
      intro hl accA accC upl hacc
      have ha := hl a (List.mem_cons_self a rest)
      have hfind : a.effects.find? (fun e => e.fluent == tcN) = some inc1 :=
        find?_of_filter _ inc1 a.effects [] ha
      have hstep : collectCostsGo tcN (a :: rest) (accA, accC, upl) =
          collectCostsGo tcN rest
            (accA ++ [{ a with effects := removeFirstBEq a.effects inc1 }],
             accC ++ [(a.name, inc1.value)], upl) := by
        show (match a.effects.find? (fun e => e.fluent == tcN) with
              | some cost =>
                  collectCostsGo tcN rest
                    (accA ++ [{ a with effects := removeFirstBEq a.effects cost }],
                     accC ++ [(a.name, cost.value)],
                     if fnodeEqPyInt cost.value 1 then upl else false)
              | none => collectCostsGo tcN rest (accA ++ [a], accC, false)) = _
        rw [hfind]
        rfl
      rw [hstep]
      refine ih (fun x hx => hl x (List.mem_cons_of_mem a hx)) _ _ _ ?_
      intro x hx
      rw [List.mem_append] at hx
      cases hx with
      | inl h => exact hacc x h
      | inr h =>
          have hx1 : x = { a with effects := removeFirstBEq a.effects inc1 } := by
            simpa using h
          subst hx1
          exact filter_remove_single _ inc1 beq_inc1_fluent rfl a.effects ha

/-- The normalization branch of the metric block: a minimized metric equal to
the cost expression removes the cost fluent, its initial value and its
per-action effects, and (when the plan-length flag survived the
cost-collection loop) appends the sequential-plan-length metric. -/
theorem applyMetric_good (pf : Nat) (prob : UPProblem)
    (hfl : prob.fluentByName "total-cost" = some tcF)
    (hdurE : prob.durActions.isEmpty = true)
    (hupl : (collectCostsGo tcN prob.instActions ([], [], true)).2.2 = true) :
    applyMetric (pf + 1) prob [] (some tcN) true (some "minimize") (some metricTC)
      = .ok { prob with
              fluents := removeFirstBEq prob.fluents tcF,
              initialValues := prob.initialValues.filter (fun p => !(p.1 == tcN)),
              instActions := (collectCostsGo tcN prob.instActions ([], [], true)).1,
              qualityMetrics := prob.qualityMetrics
                ++ [.minimizeSequentialPlanLength] } := by
  have hme := parseExp_metricTC pf prob hfl
  show (do
    let me ← parseExp (pf + 1) prob none [] [] [] metricTC
    if (true && ((some "minimize" : Option String) == some "minimize")
        && (me == tcN) : Bool) then do
      let t := (some tcN).getD me
      let f ← match t with
        | .fluentApp f _ => pure f
        | _ => Except.error PErr.assertErr
      let fluents1 := removeFirstBEq prob.fluents f
      let init1 := prob.initialValues.filter (fun p => !(p.1 == t))
      let upl0 := prob.durActions.isEmpty
      let (acts1, costs, upl) := collectCostsGo t prob.instActions ([], [], upl0)
      let metric1 : QualityMetric :=
        if upl then .minimizeSequentialPlanLength
        else .minimizeActionCosts costs (.intConst 0)
      Except.ok { prob with
            fluents := fluents1
            initialValues := init1
            instActions := acts1
            qualityMetrics := prob.qualityMetrics ++ [metric1] }
    else if ((some "minimize" : Option String) == some "minimize" : Bool) then
      Except.ok { prob with
            qualityMetrics := prob.qualityMetrics
              ++ [.minimizeExprOnFinalState me] }
    else if ((some "minimize" : Option String) == some "maximize" : Bool) then
      Except.ok { prob with
            qualityMetrics := prob.qualityMetrics
              ++ [.maximizeExprOnFinalState me] }
    else Except.ok prob : Except PErr UPProblem) = _
  rw [hme]
  simp only [upBindOk]
  rw [hdurE]
  show (Except.ok { prob with
        fluents := removeFirstBEq prob.fluents tcF,
        initialValues := prob.initialValues.filter (fun p => !(p.1 == tcN)),
        instActions := (collectCostsGo tcN prob.instActions ([], [], true)).1,
        qualityMetrics := prob.qualityMetrics ++
          [if (collectCostsGo tcN prob.instActions ([], [], true)).2.2
           then QualityMetric.minimizeSequentialPlanLength
           else QualityMetric.minimizeActionCosts
             (collectCostsGo tcN prob.instActions ([], [], true)).2.1
             (FNode.intConst 0)] } : Except PErr UPProblem) = _
  rw [hupl]
  rfl

/-- Counterexample to C3 as stated: `probC3cex` declares the `total-cost`
fluent with initial value `0`, has no durative action, its single action
carries exactly one unconditional `increase` of `1` on `total-cost`, and the
metric is `minimize total-cost` — every condition the claim states — yet
because a goal mentions `total-cost`, `_problem_has_actions_cost` returns
`False` and the normalizer takes the generic branch: the result keeps the
`total-cost` fluent, keeps the increase effect, and records
`MinimizeExpressionOnFinalState(total-cost)` instead of a plan-length
metric. -/
theorem c3_counterexample :
    probC3cex.initialValue? tcN = some (.intConst 0)
    ∧ probC3cex.durActions = []
    ∧ (∀ a ∈ probC3cex.instActions, a.effects = [inc1])
    ∧ normalizeAndApplyMetric 9 probC3cex [] (some tcN) (some "minimize")
        (some metricTC)
      = .ok { probC3cex with qualityMetrics := [.minimizeExprOnFinalState tcN] }
    ∧ tcF ∈ probC3cex.fluents := by
  refine ⟨rfl, rfl, ?_, rfl, ?_⟩
  · intro a ha
    rw [show probC3cex.instActions = [actA] from rfl, List.mem_singleton] at ha
    subst ha
    rfl
  · show tcF ∈ [tcF]
    exact List.mem_singleton_self tcF

/-- C3 (amended): the stated conditions — `total-cost` declared with initial
value `0`, every instantaneous action touching it through exactly one
unconditional `increase` by `1`, no durative actions, and the metric
`minimize total-cost` — force the plan-length collapse only together with the
further conditions the code checks: `total-cost` must not appear in any
precondition, in any other effect's value or condition, in any timed effect,
or in any goal.  Under the full set of conditions the normalizer appends the
sequential-plan-length metric, removes the `total-cost` fluent from the fluent
set, and strips the increase effect from every action. -/
theorem c3_metric_normalization (pf : Nat) (prob : UPProblem)
    (hfl : prob.fluentByName "total-cost" = some tcF)
    (hcount : prob.fluents.count tcF ≤ 1)
    (hinit : prob.initialValue? tcN = some (.intConst 0))
    (hdur : prob.durActions = [])
    (heff : ∀ a ∈ prob.instActions,
      a.effects.filter (fun e => e.fluent == tcN) = [inc1])
    (hpre : ∀ a ∈ prob.instActions,
      a.preconditions.any (fun c => tcMem (some tcN) c) = false)
    (hval : ∀ a ∈ prob.instActions, a.effects.any (fun e =>
      tcMem (some tcN) e.value || tcMem (some tcN) e.condition) = false)
    (hte : prob.timedEffects.any (fun pe =>
      tcMem (some tcN) pe.2.fluent || tcMem (some tcN) pe.2.value
        || tcMem (some tcN) pe.2.condition) = false)
    (hgoal : prob.goals.any (fun g => tcMem (some tcN) g) = false) :
    ∃ res,
      normalizeAndApplyMetric (pf + 1) prob [] (some tcN) (some "minimize")
        (some metricTC) = .ok res
      ∧ res.qualityMetrics
          = prob.qualityMetrics ++ [.minimizeSequentialPlanLength]
      ∧ tcF ∉ res.fluents
      ∧ ∀ a ∈ res.instActions,
          a.effects.filter (fun e => e.fluent == tcN) = [] := by
  have hccg := collectCostsGo_good prob.instActions heff [] [] true
    (fun a ha => absurd ha (List.not_mem_nil a))
  have hA : hasActionsCostDomain prob (some tcN) = true :=
    hasActionsCostDomain_of_good prob hdur heff hpre hval
  have hB : problemHasActionsCost prob (some tcN) = .ok true :=
    problemHasActionsCost_of_good prob hinit hte hgoal
  have hdurE : prob.durActions.isEmpty = true := by rw [hdur]; rfl
  have hC := applyMetric_good pf prob hfl hdurE hccg.1
  refine ⟨{ prob with
            fluents := removeFirstBEq prob.fluents tcF,
            initialValues := prob.initialValues.filter (fun p => !(p.1 == tcN)),
            instActions := (collectCostsGo tcN prob.instActions ([], [], true)).1,
            qualityMetrics := prob.qualityMetrics
              ++ [.minimizeSequentialPlanLength] },
          ?_, rfl, ?_, hccg.2⟩
  · show (do
      let hc ← if hasActionsCostDomain prob (some tcN)
        then problemHasActionsCost prob (some tcN)
        else pure false
      applyMetric (pf + 1) prob [] (some tcN) hc (some "minimize")
        (some metricTC) : Except PErr UPProblem) = _
    rw [hA]
    simp only [if_true]
    rw [hB]
    simp only [upBindOk]
    exact hC
  · exact removeFirst_not_mem tcF prob.fluents hcount

/-- Witness for C3: on the clean problem `probC3ok` the amended theorem
produces the plan-length metric, drops the `total-cost` fluent and strips the
cost effects. -/
theorem c3_witness :
    ∃ res,
      normalizeAndApplyMetric 9 probC3ok [] (some tcN) (some "minimize")
        (some metricTC) = .ok res
      ∧ res.qualityMetrics
          = probC3ok.qualityMetrics ++ [.minimizeSequentialPlanLength]
      ∧ tcF ∉ res.fluents
      ∧ ∀ a ∈ res.instActions,
          a.effects.filter (fun e => e.fluent == tcN) = [] :=
  c3_metric_normalization 8 probC3ok rfl (by decide) rfl rfl
    (by intro a ha
        rw [show probC3ok.instActions = [actA] from rfl,
          List.mem_singleton] at ha
        subst ha
        rfl)
    (by intro a ha
        rw [show probC3ok.instActions = [actA] from rfl,
          List.mem_singleton] at ha
        subst ha
        rfl)
    (by intro a ha
        rw [show probC3ok.instActions = [actA] from rfl,
          List.mem_singleton] at ha
        subst ha
        rfl)
    rfl rfl

end UPVer
